import Mathlib

/-!
# A verification of the A-Star-Visualization path-finding engine

This development embeds the path-finding engine of the repository
(`pathfinding.py`, together with the grid-model methods of `window.py`
that the engine reads) into Lean and proves properties of the embedding.

Modelling conventions:

* Python floats are idealized as exact real numbers.  Every f-score the
  engine manipulates has the shape `g + sqrt d` with `g d : Nat`, so an
  f-score is represented by the pair `FS` and its comparisons are decided
  by exact integer arithmetic (`sqrtLeInt`); the bridge lemmas relate the
  boolean tests to the real-number order they implement.
* `math.inf` (the starting `g_score`/`f_score` of a `Node`) is modelled by
  `none` in an `Option`.
* Python exceptions (failing assertions, list index errors, and the
  `IndexError` of `heappop` on an empty heap) are modelled by `none`
  results of `Option`-valued functions; an interpreter loop that runs out
  of fuel is also `none`.  A `some` result means the Python code returns
  normally.
* `heapq` is modelled as a multiset of entries held in a list: `heappush`
  appends, and `heappop` removes and returns the least entry in the
  lexicographic order on `(f_score, cell id)` pairs, which is exactly the
  tuple order `heapq` uses.
* The tkinter `Window` object is modelled by the fields the engine reads:
  width, height, the dictionary of drawn cells (reduced to their colour,
  the only attribute `obstacle_exists` consults), and the optional start
  and end cell ids.  The class constants `cell_width = cell_height = 25`
  are kept as constants.
* Python `Heap.__init__` uses a mutable default argument `data = []`: the
  same list object is shared by every `Heap()` call, so whatever the list
  holds when one `a_star` invocation returns is still there when the next
  invocation begins.  The model makes this explicit: `a_star` receives the
  current contents of that shared list and returns (together with the
  path) the contents the list has after the call.  The very first call of
  a program run sees `[]`.
-/

/-! ## Exact f-scores: `g + sqrt d` -/

/-- An f-score value `g + sqrt d` as computed by the engine: `g` is the
integer g-score and `d` the squared Euclidean distance supplied by
`h_score`.  Python stores this as a float; we store the exact data. -/
structure FS where
  g : Nat
  d : Nat
deriving DecidableEq

/-- Decides `sqrt x ≤ k + sqrt y` by integer arithmetic. -/
def sqrtLeInt (x : Nat) (k : Int) (y : Nat) : Bool :=
  if 0 ≤ k then
    let t : Int := (x : Int) - k * k - (y : Int)
    t ≤ 0 || t * t ≤ 4 * (k * k) * (y : Int)
  else
    let u : Int := (y : Int) - (x : Int) - k * k
    0 ≤ u && 4 * (k * k) * (x : Int) ≤ u * u

/-- The float comparison `a ≤ b` on f-scores, idealized to the exact
reals they denote. -/
def FS.leR (a b : FS) : Bool :=
  sqrtLeInt a.d ((b.g : Int) - (a.g : Int)) b.d

/-- The float equality test `a == b` on f-scores, idealized to exact
real equality (equivalently, `≤` in both directions). -/
def FS.beqR (a b : FS) : Bool :=
  a.leR b && b.leR a

/-! ## The heap (`Heap` wrapping `heapq` in `pathfinding.py`)

A heap entry is a `(f_score, cell id)` tuple.  `heapq` orders tuples
lexicographically, so the float f-score is compared first and the cell
id breaks ties. -/

abbrev Entry := FS × Nat

/-- The tuple order used by `heapq`: compare the f-score floats first,
break ties by cell id. -/
def entryLe (a b : Entry) : Bool :=
  (!(b.1.leR a.1)) || (a.1.beqR b.1 && decide (a.2 ≤ b.2))

/-- `heappop`: remove and return the least entry, or `none` on an empty
heap (Python raises `IndexError`). -/
def heapPop (l : List Entry) : Option (Entry × List Entry) :=
  match l with
  | [] => none
  | h :: t =>
    let m := t.foldl (fun m x => if !(entryLe m x) then x else m) h
    some (m, l.erase m)

/-! ## Per-cell search records (`Node` in `pathfinding.py`) -/

/-- The record `a_star` keeps per cell.  `none` for `g_score`/`f_score`
stands for the `math.inf` the constructor writes. -/
structure Node where
  came_from : Option Nat := none
  g_score : Option Nat := none
  f_score : Option FS := none
  visited : Bool := false
deriving DecidableEq

/-- The float comparison `new_g < g` with `math.inf` as `none`
(`inf < inf` is false, `x < inf` is true for finite `x`). -/
def ltG : Option Nat → Option Nat → Bool
  | some a, some b => a < b
  | some _, none => true
  | none, _ => false

/-- The float equality test `cells[i].f_score == priority` where the
stored f-score may still be `math.inf` (`none`), which is equal to no
pushed (finite) priority. -/
def fsEq : Option FS → FS → Bool
  | some a, b => a.beqR b
  | none, _ => false

/-! ## The grid model (`window.py`) -/

/-- The colours a drawn cell can have (`Colours` enum). -/
inductive Colours where
  | OBSTACLE
  | START
  | END
  | PATH
deriving DecidableEq

/-- The state of a `Window` that the engine can observe: geometry, the
dictionary of drawn cells (by colour), and the optional start/end ids. -/
structure Window where
  width : Nat
  height : Nat
  cells : Nat → Option Colours
  start : Option Nat
  end_ : Option Nat

/-- Class constant `cell_width` of `Window`. -/
def Window.cell_width : Nat := 25

/-- Class constant `cell_height` of `Window`. -/
def Window.cell_height : Nat := 25

/-- `Window.obstacle_exists`: the cell is drawn and its colour is the
obstacle colour. -/
def Window.obstacle_exists (w : Window) (cell_id : Nat) : Bool :=
  match w.cells cell_id with
  | some col => col = Colours.OBSTACLE
  | none => false

/-- `obstacle_exists` applied to a raw (possibly negative) Python int
id; a negative id is never a key of the cells dictionary. -/
def Window.obstacle_existsZ (w : Window) (cell_id : Int) : Bool :=
  if cell_id < 0 then false else w.obstacle_exists cell_id.toNat

/-- `Window.cell_to_cell_id`: `x + (y * width // cell_width)`.
Coordinates are Python ints, so the result may be negative for
out-of-range coordinates. -/
def Window.cell_to_cell_id (w : Window) (cell_coords : Int × Int) : Int :=
  cell_coords.1 + cell_coords.2 * (w.width : Int) / (Window.cell_width : Int)

/-- `Window.cell_id_to_cell`:
`(cell_id % (width // cell_width), cell_id // (width // cell_width))`. -/
def Window.cell_id_to_cell (w : Window) (cell_id : Nat) : Int × Int :=
  ((cell_id % (w.width / Window.cell_width) : Nat),
   (cell_id / (w.width / Window.cell_width) : Nat))

/-- `Window.out_of_bounds`. -/
def Window.out_of_bounds (w : Window) (cell_coords : Int × Int) : Bool :=
  cell_coords.1 < 0 || cell_coords.2 < 0 ||
    cell_coords.1 > ((w.width / Window.cell_width : Nat) : Int) - 1 ||
    cell_coords.2 > ((w.height / Window.cell_height : Nat) : Int) - 1

/-- `Window.get_num_cells`. -/
def Window.get_num_cells (w : Window) : Nat :=
  (w.width / Window.cell_width) * (w.height / Window.cell_height)

/-- `Window.get_neighbours`: the ids of the four axis-aligned adjacent
coordinates that are in bounds and hold no obstacle.  The ids of the
surviving coordinates are nonnegative, so `toNat` is exact. -/
def Window.get_neighbours (w : Window) (cell_id : Nat) : List Nat :=
  let cell := w.cell_id_to_cell cell_id
  let north := (cell.1, cell.2 - 1)
  let east := (cell.1 + 1, cell.2)
  let south := (cell.1, cell.2 + 1)
  let west := (cell.1 - 1, cell.2)
  (([north, east, south, west]).filter
      (fun coords => !w.out_of_bounds coords &&
        !w.obstacle_existsZ (w.cell_to_cell_id coords))).map
    (fun coords => (w.cell_to_cell_id coords).toNat)

/-! ## The heuristic (`h_score` in `pathfinding.py`) -/

/-- The squared Euclidean distance between the grid coordinates of two
cells, the value under the square root in `h_score`. -/
def Window.hsq (w : Window) (cell1 cell2 : Nat) : Nat :=
  (((w.cell_id_to_cell cell1).1 - (w.cell_id_to_cell cell2).1) *
      ((w.cell_id_to_cell cell1).1 - (w.cell_id_to_cell cell2).1) +
    ((w.cell_id_to_cell cell1).2 - (w.cell_id_to_cell cell2).2) *
      ((w.cell_id_to_cell cell1).2 - (w.cell_id_to_cell cell2).2)).toNat

/-- `h_score`: the Euclidean distance `sqrt (dx^2 + dy^2)` as an exact
f-score with zero integer part. -/
def h_score (w : Window) (cell1 cell2 : Nat) : FS :=
  ⟨0, w.hsq cell1 cell2⟩

/-! ## The engine (`a_star` in `pathfinding.py`) -/

/-- The inner pop loop of `a_star`, with fuel for structural recursion:
keep popping until the heap is empty after the pop or the popped entry
matches the current f-score of its cell.  Returns the entry the loop
leaves in `top` together with the remaining heap; `none` models a
Python exception (pop from an empty heap, or an index error reading
`cells[current_id]`) or exhausted fuel.  Each pop shrinks the heap, so
fuel equal to the heap length (what the callers pass) always suffices.
Mirrors the short-circuit of
`heap.empty() or cells[current_id].f_score == top[0]`: when the heap
has emptied, the record is not read. -/
def popUntilFresh (cells : List Node) :
    Nat → List Entry → Option (Entry × List Entry)
  | 0, _ => none
  | fuel + 1, heap =>
    match heapPop heap with
    | none => none
    | some (top, rest) =>
      if rest.isEmpty then some (top, rest)
      else
        match cells.get? top.2 with
        | none => none
        | some nd =>
          if fsEq nd.f_score top.1 then some (top, rest)
          else popUntilFresh cells fuel rest

/-- The reconstruction loop of `construct_path`: follow `came_from`
until the start cell is reached, appending each predecessor; `none`
models the failing assertion (a missing predecessor) and, at fuel 0,
a loop that would not terminate. -/
def cpGo (cells : List Node) (start : Nat) :
    Nat → Nat → List Nat → Option (List Nat)
  | 0, _, _ => none
  | fuel + 1, current, path =>
    if current = start then some path.reverse
    else
      match cells.get? current with
      | none => none
      | some nd =>
        match nd.came_from with
        | none => none
        | some came_from => cpGo cells start fuel came_from (path ++ [came_from])

/-- `construct_path`: empty for `start == end`, otherwise walk the
`came_from` chain backwards from `end` and reverse.  The fuel
`cells.length + 1` covers every chain that visits each cell at most
once, which the engine invariants guarantee. -/
def construct_path (start end_ : Nat) (cells : List Node) : Option (List Nat) :=
  if start = end_ then some []
  else cpGo cells start (cells.length + 1) end_ [end_]

/-- One relaxation of the body of the neighbour loop of `a_star`:
skip visited neighbours, compute `new_g = g(current) + ADJACENT_COST`
and, when it improves the neighbour, rewrite its record and push it. -/
def relaxStep (w : Window) (end_ current : Nat)
    (st : List Node × List Entry) (neighbour : Nat) :
    Option (List Node × List Entry) :=
  match st.1.get? neighbour with
  | none => none
  | some nbNode =>
    if nbNode.visited then some st
    else
      match st.1.get? current with
      | none => none
      | some curNode =>
        let newG := curNode.g_score.map (· + 1)
        if ltG newG nbNode.g_score then
          match newG with
          | none => some st
          | some k =>
            let f : FS := ⟨k, w.hsq neighbour end_⟩
            some (st.1.set neighbour
                { nbNode with came_from := some current,
                              g_score := some k, f_score := some f },
              st.2 ++ [(f, neighbour)])
        else some st

/-- The neighbour loop of `a_star` over the list returned by
`get_neighbours`. -/
def expandList (w : Window) (end_ current : Nat) :
    List Nat → List Node × List Entry → Option (List Node × List Entry)
  | [], st => some st
  | nb :: rest, st =>
    match relaxStep w end_ current st nb with
    | none => none
    | some st2 => expandList w end_ current rest st2

/-- The outcome of one iteration of the outer `while` loop of `a_star`. -/
inductive StepRes where
  | ret : List Nat → List Entry → StepRes
  | cont : List Node → List Entry → StepRes
  | err : StepRes
deriving DecidableEq

/-- One iteration of the outer loop of `a_star`: run the pop loop, then
either return the reconstructed path (when the popped cell is the end),
or mark the cell visited, relax its neighbours, and continue. -/
def aStarStep (w : Window) (start end_ : Nat)
    (cells : List Node) (heap : List Entry) : StepRes :=
  match popUntilFresh cells heap.length heap with
  | none => .err
  | some (top, rest) =>
    let current := top.2
    if current = end_ then
      match construct_path start current cells with
      | none => .err
      | some p => .ret p rest
    else
      match cells.get? current with
      | none => .err
      | some nd =>
        let cells1 := cells.set current { nd with visited := true }
        match expandList w end_ current (w.get_neighbours current) (cells1, rest) with
        | none => .err
        | some (cells2, heap2) => .cont cells2 heap2

/-- The outer `while not heap.empty()` loop of `a_star`, with fuel.
When the frontier empties, the empty path is returned together with the
final contents of the shared heap list. -/
def aStarLoop (w : Window) (start end_ : Nat) :
    Nat → List Node → List Entry → Option (List Nat × List Entry)
  | 0, _, _ => none
  | fuel + 1, cells, heap =>
    if heap.isEmpty then some ([], heap)
    else
      match aStarStep w start end_ cells heap with
      | .ret p rest => some (p, rest)
      | .cont cells2 heap2 => aStarLoop w start end_ fuel cells2 heap2
      | .err => none

/-- `a_star`.  `data` is the current contents of the shared default
list of `Heap.__init__` (empty on the first invocation of a program
run); the returned list is its contents after the call.  The failing
`assert` on an undefined start or end is `none`.  The fuel bound
is justified by `aStarLoop_fuel_enough` below: a run from a fresh
frontier never exhausts it. -/
def a_star (w : Window) (data : List Entry) :
    Option (List Nat × List Entry) :=
  match w.start, w.end_ with
  | some start, some end_ =>
    let n := w.get_num_cells
    let cells0 : List Node := List.replicate n {}
    match cells0.get? start with
    | none => none
    | some nd =>
      let f0 := h_score w start end_
      let cells1 := cells0.set start { nd with g_score := some 0, f_score := some f0 }
      let heap0 := data ++ [(f0, start)]
      aStarLoop w start end_ (heap0.length + 5 * n + 1) cells1 heap0
  | _, _ => none

/-! ## Specification-side relations -/

/-- The lexicographic order on heap entries that `heapq` tuple
comparison implements, stated over the exact reals the f-score floats
denote. -/
def entryRel (a b : Entry) : Prop :=
  ((a.1.g : ℝ) + Real.sqrt a.1.d < (b.1.g : ℝ) + Real.sqrt b.1.d) ∨
    (((a.1.g : ℝ) + Real.sqrt a.1.d = (b.1.g : ℝ) + Real.sqrt b.1.d) ∧ a.2 ≤ b.2)

/-- Walks of the grid graph the engine searches: `Wk w s u n` holds when
there is a sequence of `n` unit steps from `s` to `u`, each step going to
a cell listed by `get_neighbours` (hence in bounds and not an obstacle).
The minimum `n` with `Wk w s u n` is the true step distance from `s` to
`u` under the current obstacle layout. -/
inductive Wk (w : Window) (s : Nat) : Nat → Nat → Prop where
  | nil : Wk w s s 0
  | cons {a b n} : Wk w s a n → b ∈ w.get_neighbours a → Wk w s b (n + 1)

/-- The g-score stored for cell `i`. -/
def gOf (cells : List Node) (i : Nat) : Option Nat :=
  (cells.get? i).bind Node.g_score

/-- The f-score stored for cell `i`. -/
def fOf (cells : List Node) (i : Nat) : Option FS :=
  (cells.get? i).bind Node.f_score

/-- The predecessor stored for cell `i`. -/
def cfOf (cells : List Node) (i : Nat) : Option Nat :=
  (cells.get? i).bind Node.came_from

/-- The visited flag of cell `i` (false when out of range). -/
def visB (cells : List Node) (i : Nat) : Bool :=
  match cells.get? i with
  | some nd => nd.visited
  | none => false

/-- A heap entry is fresh when its stored priority equals the current
f-score of its cell (the test of the inner pop loop). -/
def freshE (cells : List Node) (x : Entry) : Prop :=
  ∃ nd, cells.get? x.2 = some nd ∧ fsEq nd.f_score x.1 = true

/-- Termination measure of the outer loop: every iteration strictly
decreases it (pops remove at least one entry; at most four pushes
happen, and only when an unvisited cell becomes visited). -/
def searchMeasure (cells : List Node) (heap : List Entry) : Nat :=
  heap.length + 5 * (cells.filter (fun nd => !nd.visited)).length

/-- The run invariant of `a_star` on a fresh frontier, holding at every
top of the outer loop.

* `len`: the record list covers the grid.
* `gs`: the start keeps g-score 0.
* `gWalk`: every finite g-score is realized by a walk.
* `fg`: the stored f-score is `g + h(cell, end)` whenever g is finite.
* `pred`: every discovered cell other than the start has a predecessor
  of strictly smaller g-score from which it is a neighbour.
* `heapEnt`: every heap entry addresses a discovered in-range cell and
  its stored priority integer part is at least the current g-score.
* `fresh`: every discovered unvisited cell has its fresh entry in the
  heap.
* `visMin`: the g-score of a visited cell is minimal over all walks
  (the A-star optimality invariant for closed cells).
* `relaxed`: the edges out of a visited cell have been relaxed: no
  unvisited neighbour would accept `g + 1`.
* `visStale`: entries of visited cells are strictly stale.
* `distinctG`: entries of the same cell carry distinct priority
  integer parts (so the fresh entry is unique).
* `visE`: the end cell is never marked visited (the loop returns
  before marking it). -/
structure AStarInv (w : Window) (s e : Nat) (cells : List Node)
    (heap : List Entry) : Prop where
  len : cells.length = w.get_num_cells
  gs : gOf cells s = some 0
  gWalk : ∀ i k, gOf cells i = some k → Wk w s i k
  fg : ∀ i k, gOf cells i = some k → fOf cells i = some (FS.mk k (w.hsq i e))
  pred : ∀ i k, gOf cells i = some k → i ≠ s →
    ∃ p kp, cfOf cells i = some p ∧ i ∈ w.get_neighbours p ∧
      gOf cells p = some kp ∧ kp + 1 ≤ k
  heapEnt : ∀ en ∈ heap, ∃ k, gOf cells en.2 = some k ∧ k ≤ en.1.g ∧
    en.1.d = w.hsq en.2 e ∧ en.2 < w.get_num_cells
  fresh : ∀ i k, gOf cells i = some k → visB cells i = false →
    (FS.mk k (w.hsq i e), i) ∈ heap
  visMin : ∀ i, visB cells i = true → ∃ k, gOf cells i = some k ∧
    ∀ m, Wk w s i m → k ≤ m
  relaxed : ∀ c, visB cells c = true → ∀ i ∈ w.get_neighbours c,
    visB cells i = false → ltG ((gOf cells c).map (· + 1)) (gOf cells i) = false
  visStale : ∀ en ∈ heap, visB cells en.2 = true →
    ∃ k, gOf cells en.2 = some k ∧ k < en.1.g
  distinctG : heap.Pairwise (fun a b => a.2 = b.2 → a.1.g ≠ b.1.g)
  visE : visB cells e = false

/-- Relation between the state before and during the neighbour loop
of one expansion: `u` is the cell being expanded, `gu` its g-score,
`cells1` the records right after `u` was marked visited, and `rest`
the heap left by the pop loop.  Cells are either untouched or relaxed
through `u`; the heap keeps `rest` and gains only the pushed fresh
entries of relaxed cells. -/
structure ExpandInv (w : Window) (e u gu : Nat) (cells1 : List Node)
    (rest : List Entry) (cells2 : List Node) (heap2 : List Entry) : Prop where
  len : cells2.length = cells1.length
  vis : ∀ i, visB cells2 i = visB cells1 i
  dich : ∀ i, cells2.get? i = cells1.get? i ∨
    ∃ nd1, cells1.get? i = some nd1 ∧ nd1.visited = false ∧
      ltG (some (gu + 1)) nd1.g_score = true ∧
      i ∈ w.get_neighbours u ∧
      cells2.get? i = some (Node.mk (some u) (some (gu + 1))
        (some (FS.mk (gu + 1) (w.hsq i e))) false) ∧
      (FS.mk (gu + 1) (w.hsq i e), i) ∈ heap2
  heapE : ∀ en ∈ heap2, ∃ k, gOf cells2 en.2 = some k ∧ k ≤ en.1.g ∧
    en.1.d = w.hsq en.2 e ∧ en.2 < w.get_num_cells
  pw : heap2.Pairwise (fun a b => a.2 = b.2 → a.1.g ≠ b.1.g)
  hsub : ∀ x ∈ rest, x ∈ heap2
  hcover : ∀ x ∈ heap2, x ∈ rest ∨ (visB cells1 x.2 = false ∧ x.1.g = gu + 1)

/-- A 1-cell window (25 by 25 pixels, one 25-pixel cell). -/
def windowOneCell : Window :=
  { width := 25, height := 25, cells := fun _ => none,
    start := some 0, end_ := some 1 }

/-- A 2-by-2 window (50 by 50 pixels, cell ids 0 to 3). -/
def windowTwoByTwo : Window :=
  { width := 50, height := 50, cells := fun _ => none,
    start := some 0, end_ := some 1 }

/-- A 2-by-2 window (cell ids 0 to 3) with no obstacles, start cell 0
and end cell 3; every shortest path has two edges. -/
def windowOpenFour : Window :=
  { width := 50, height := 50, cells := fun _ => none,
    start := some 0, end_ := some 3 }

/-- A 2-by-2 window whose cells 1 and 2 hold obstacles, so start 0 and
end 3 lie in different components. -/
def windowBlockedFour : Window :=
  { width := 50, height := 50,
    cells := fun i => if i = 1 ∨ i = 2 then some Colours.OBSTACLE else none,
    start := some 0, end_ := some 3 }

/-! # Theorems -/

/-! ## Bridges: the integer decision procedures implement the real order -/

theorem sqrtLeInt_iff (x : Nat) (k : Int) (y : Nat) :
    sqrtLeInt x k y = true ↔
      Real.sqrt (x : ℝ) ≤ (k : ℝ) + Real.sqrt (y : ℝ) := by
  have hx0 : (0:ℝ) ≤ (x:ℝ) := by positivity
  have hy0 : (0:ℝ) ≤ (y:ℝ) := by positivity
  have hsy : Real.sqrt (y:ℝ) ^ 2 = (y:ℝ) := Real.sq_sqrt hy0
  have hsx : Real.sqrt (x:ℝ) ^ 2 = (x:ℝ) := Real.sq_sqrt hx0
  have hsx0 : (0:ℝ) ≤ Real.sqrt (x:ℝ) := Real.sqrt_nonneg _
  have hsy0 : (0:ℝ) ≤ Real.sqrt (y:ℝ) := Real.sqrt_nonneg _
  unfold sqrtLeInt
  split_ifs with hk
  · have hkR : (0:ℝ) ≤ (k:ℝ) := by exact_mod_cast hk
    have h0 : (0:ℝ) ≤ (k:ℝ) + Real.sqrt (y:ℝ) := add_nonneg hkR hsy0
    have hiff : Real.sqrt (x:ℝ) ≤ (k:ℝ) + Real.sqrt (y:ℝ) ↔
        (x:ℝ) ≤ ((k:ℝ) + Real.sqrt (y:ℝ)) ^ 2 := by
      rw [Real.sqrt_le_iff]
      exact and_iff_right h0
    rw [hiff]
    have hexp : ((k:ℝ) + Real.sqrt (y:ℝ)) ^ 2
        = (k:ℝ) * (k:ℝ) + 2 * (k:ℝ) * Real.sqrt (y:ℝ) + (y:ℝ) := by
      have : ((k:ℝ) + Real.sqrt (y:ℝ)) ^ 2
          = (k:ℝ) * (k:ℝ) + 2 * (k:ℝ) * Real.sqrt (y:ℝ) + Real.sqrt (y:ℝ) ^ 2 := by
        ring
      rw [this, hsy]
    rw [hexp]
    simp only [Bool.or_eq_true, decide_eq_true_eq]
    constructor
    · rintro (h1 | h1)
      · have h1R : (x:ℝ) - (k:ℝ) * (k:ℝ) - (y:ℝ) ≤ 0 := by exact_mod_cast h1
        nlinarith [mul_nonneg hkR hsy0]
      · have h1R : ((x:ℝ) - (k:ℝ)*(k:ℝ) - (y:ℝ)) * ((x:ℝ) - (k:ℝ)*(k:ℝ) - (y:ℝ))
            ≤ 4 * ((k:ℝ)*(k:ℝ)) * (y:ℝ) := by exact_mod_cast h1
        nlinarith [mul_nonneg hkR hsy0, hsy]
    · intro h1
      by_cases ht : (x : Int) - k * k - (y : Int) ≤ 0
      · left; exact ht
      · right
        push_neg at ht
        have htR : (0:ℝ) < (x:ℝ) - (k:ℝ)*(k:ℝ) - (y:ℝ) := by exact_mod_cast ht
        have hts : (x:ℝ) - (k:ℝ)*(k:ℝ) - (y:ℝ) ≤ 2 * (k:ℝ) * Real.sqrt (y:ℝ) := by
          nlinarith
        have hsq : ((x:ℝ) - (k:ℝ)*(k:ℝ) - (y:ℝ)) * ((x:ℝ) - (k:ℝ)*(k:ℝ) - (y:ℝ))
            ≤ (2 * (k:ℝ) * Real.sqrt (y:ℝ)) * (2 * (k:ℝ) * Real.sqrt (y:ℝ)) :=
          mul_self_le_mul_self (le_of_lt htR) hts
        have h4 : (2 * (k:ℝ) * Real.sqrt (y:ℝ)) * (2 * (k:ℝ) * Real.sqrt (y:ℝ))
            = 4 * ((k:ℝ)*(k:ℝ)) * (y:ℝ) := by
          have : (2 * (k:ℝ) * Real.sqrt (y:ℝ)) * (2 * (k:ℝ) * Real.sqrt (y:ℝ))
              = 4 * ((k:ℝ)*(k:ℝ)) * (Real.sqrt (y:ℝ) ^ 2) := by ring
          rw [this, hsy]
        rw [h4] at hsq
        exact_mod_cast hsq
  · push_neg at hk
    have hkR : (k:ℝ) < 0 := by exact_mod_cast hk
    have ha0 : (0:ℝ) ≤ Real.sqrt (x:ℝ) - (k:ℝ) := by linarith
    have h1 : Real.sqrt (x:ℝ) ≤ (k:ℝ) + Real.sqrt (y:ℝ) ↔
        Real.sqrt (x:ℝ) - (k:ℝ) ≤ Real.sqrt (y:ℝ) := by constructor <;> intro <;> linarith
    have h2 : Real.sqrt (x:ℝ) - (k:ℝ) ≤ Real.sqrt (y:ℝ) ↔
        (Real.sqrt (x:ℝ) - (k:ℝ)) ^ 2 ≤ (y:ℝ) := Real.le_sqrt ha0 hy0
    have h3 : (Real.sqrt (x:ℝ) - (k:ℝ)) ^ 2
        = (x:ℝ) - 2 * (k:ℝ) * Real.sqrt (x:ℝ) + (k:ℝ)*(k:ℝ) := by
      have : (Real.sqrt (x:ℝ) - (k:ℝ)) ^ 2
          = Real.sqrt (x:ℝ) ^ 2 - 2 * (k:ℝ) * Real.sqrt (x:ℝ) + (k:ℝ)*(k:ℝ) := by ring
      rw [this, hsx]
    rw [h1, h2, h3]
    simp only [Bool.and_eq_true, decide_eq_true_eq]
    constructor
    · rintro ⟨hu, hsq⟩
      have huR : (0:ℝ) ≤ (y:ℝ) - (x:ℝ) - (k:ℝ)*(k:ℝ) := by exact_mod_cast hu
      have hsqR : 4 * ((k:ℝ)*(k:ℝ)) * (x:ℝ)
          ≤ ((y:ℝ) - (x:ℝ) - (k:ℝ)*(k:ℝ)) * ((y:ℝ) - (x:ℝ) - (k:ℝ)*(k:ℝ)) := by
        exact_mod_cast hsq
      nlinarith [hsx, mul_nonneg (mul_nonneg (by linarith : (0:ℝ) ≤ -2 * (k:ℝ)) hsx0) huR]
    · intro hreal
      have key : 2 * (-(k:ℝ)) * Real.sqrt (x:ℝ) ≤ (y:ℝ) - (x:ℝ) - (k:ℝ)*(k:ℝ) := by
        linarith
      have hl0 : (0:ℝ) ≤ 2 * (-(k:ℝ)) * Real.sqrt (x:ℝ) := by
        have : (0:ℝ) ≤ -(k:ℝ) := by linarith
        positivity
      have hu : (0:Int) ≤ (y : Int) - (x : Int) - k * k := by
        have : (0:ℝ) ≤ (y:ℝ) - (x:ℝ) - (k:ℝ)*(k:ℝ) := le_trans hl0 key
        exact_mod_cast this
      refine ⟨hu, ?_⟩
      have hsq : (2 * (-(k:ℝ)) * Real.sqrt (x:ℝ)) * (2 * (-(k:ℝ)) * Real.sqrt (x:ℝ))
          ≤ ((y:ℝ) - (x:ℝ) - (k:ℝ)*(k:ℝ)) * ((y:ℝ) - (x:ℝ) - (k:ℝ)*(k:ℝ)) :=
        mul_self_le_mul_self hl0 key
      have h4 : (2 * (-(k:ℝ)) * Real.sqrt (x:ℝ)) * (2 * (-(k:ℝ)) * Real.sqrt (x:ℝ))
          = 4 * ((k:ℝ)*(k:ℝ)) * (x:ℝ) := by
        have : (2 * (-(k:ℝ)) * Real.sqrt (x:ℝ)) * (2 * (-(k:ℝ)) * Real.sqrt (x:ℝ))
            = 4 * ((k:ℝ)*(k:ℝ)) * (Real.sqrt (x:ℝ) ^ 2) := by ring
        rw [this, hsx]
      rw [h4] at hsq
      exact_mod_cast hsq

theorem FS.leR_iff (a b : FS) :
    a.leR b = true ↔
      (a.g : ℝ) + Real.sqrt (a.d : ℝ) ≤ (b.g : ℝ) + Real.sqrt (b.d : ℝ) := by
  unfold FS.leR
  rw [sqrtLeInt_iff]
  push_cast
  constructor <;> intro h <;> linarith

theorem FS.beqR_iff (a b : FS) :
    a.beqR b = true ↔
      (a.g : ℝ) + Real.sqrt (a.d : ℝ) = (b.g : ℝ) + Real.sqrt (b.d : ℝ) := by
  unfold FS.beqR
  rw [Bool.and_eq_true, FS.leR_iff, FS.leR_iff]
  constructor
  · rintro ⟨h1, h2⟩; exact le_antisymm h1 h2
  · intro h; exact ⟨le_of_eq h, ge_of_eq h⟩

theorem FS.leR_false_iff (a b : FS) :
    a.leR b = false ↔
      (b.g : ℝ) + Real.sqrt (b.d : ℝ) < (a.g : ℝ) + Real.sqrt (a.d : ℝ) := by
  rw [← not_le, ← FS.leR_iff]
  cases h : a.leR b <;> simp [h]

theorem entryLe_iff (a b : Entry) : entryLe a b = true ↔ entryRel a b := by
  unfold entryLe entryRel
  rw [Bool.or_eq_true, Bool.and_eq_true, Bool.not_eq_true', FS.leR_false_iff,
    FS.beqR_iff, decide_eq_true_eq]

theorem entryRel_refl (a : Entry) : entryRel a a := Or.inr ⟨rfl, le_refl _⟩

theorem entryRel_trans {a b c : Entry} (h1 : entryRel a b) (h2 : entryRel b c) :
    entryRel a c := by
  rcases h1 with h1 | ⟨h1, h1i⟩ <;> rcases h2 with h2 | ⟨h2, h2i⟩
  · exact Or.inl (lt_trans h1 h2)
  · exact Or.inl (lt_of_lt_of_eq h1 h2)
  · exact Or.inl (lt_of_eq_of_lt h1 h2)
  · exact Or.inr ⟨h1.trans h2, h1i.trans h2i⟩

theorem entryRel_total (a b : Entry) : entryRel a b ∨ entryRel b a := by
  rcases lt_trichotomy ((a.1.g : ℝ) + Real.sqrt a.1.d) ((b.1.g : ℝ) + Real.sqrt b.1.d)
    with h | h | h
  · exact Or.inl (Or.inl h)
  · rcases le_total a.2 b.2 with hi | hi
    · exact Or.inl (Or.inr ⟨h, hi⟩)
    · exact Or.inr (Or.inr ⟨h.symm, hi⟩)
  · exact Or.inr (Or.inl h)

/-! ## Properties of the heap model -/

theorem foldlMin_mem (l : List Entry) (y : Entry) :
    l.foldl (fun m x => if !(entryLe m x) then x else m) y ∈ y :: l := by
  induction l generalizing y with
  | nil => simp
  | cons z ls ih =>
    simp only [List.foldl_cons]
    rcases List.mem_cons.mp (ih (if !(entryLe y z) then z else y)) with h1 | h1
    · rw [h1]
      split
      · simp
      · simp
    · exact List.mem_cons_of_mem _ (List.mem_cons_of_mem _ h1)

theorem foldlMin_le (l : List Entry) (y : Entry) :
    entryRel (l.foldl (fun m x => if !(entryLe m x) then x else m) y) y ∧
      ∀ x ∈ l, entryRel (l.foldl (fun m x => if !(entryLe m x) then x else m) y) x := by
  induction l generalizing y with
  | nil => exact ⟨entryRel_refl y, by simp⟩
  | cons z ls ih =>
    simp only [List.foldl_cons]
    by_cases hc : entryLe y z = true
    · have hy : (if !(entryLe y z) then z else y) = y := by simp [hc]
      rw [hy]
      obtain ⟨h1, h2⟩ := ih y
      refine ⟨h1, ?_⟩
      intro x hx
      rcases List.mem_cons.mp hx with rfl | hx
      · exact entryRel_trans h1 ((entryLe_iff y x).mp hc)
      · exact h2 x hx
    · have hy : (if !(entryLe y z) then z else y) = z := by
        simp [Bool.not_eq_true'] at hc ⊢
        simp [hc]
      rw [hy]
      obtain ⟨h1, h2⟩ := ih z
      have hzy : entryRel z y := by
        rcases entryRel_total y z with h | h
        · exact absurd ((entryLe_iff y z).mpr h) hc
        · exact h
      refine ⟨entryRel_trans h1 hzy, ?_⟩
      intro x hx
      rcases List.mem_cons.mp hx with rfl | hx
      · exact h1
      · exact h2 x hx

theorem heapPop_none_iff (l : List Entry) : heapPop l = none ↔ l = [] := by
  cases l <;> simp [heapPop]

theorem heapPop_mem {heap : List Entry} {top : Entry} {rest : List Entry}
    (h : heapPop heap = some (top, rest)) : top ∈ heap := by
  rcases heap with _ | ⟨a, t⟩
  · simp [heapPop] at h
  · simp only [heapPop, Option.some.injEq, Prod.mk.injEq] at h
    have hmem := foldlMin_mem t a
    rw [h.1] at hmem
    exact hmem

theorem heapPop_rest {heap : List Entry} {top : Entry} {rest : List Entry}
    (h : heapPop heap = some (top, rest)) : rest = heap.erase top := by
  rcases heap with _ | ⟨a, t⟩
  · simp [heapPop] at h
  · simp only [heapPop, Option.some.injEq, Prod.mk.injEq] at h
    have h2 := h.2
    rw [h.1] at h2
    exact h2.symm

theorem heapPop_length {heap : List Entry} {top : Entry} {rest : List Entry}
    (h : heapPop heap = some (top, rest)) : rest.length < heap.length := by
  have hmem := heapPop_mem h
  rw [heapPop_rest h, List.length_erase_of_mem hmem]
  have : 0 < heap.length := List.length_pos.mpr (List.ne_nil_of_mem hmem)
  omega

theorem heapPop_min {heap : List Entry} {top : Entry} {rest : List Entry}
    (h : heapPop heap = some (top, rest)) : ∀ x ∈ heap, entryRel top x := by
  rcases heap with _ | ⟨a, t⟩
  · simp [heapPop] at h
  · simp only [heapPop, Option.some.injEq, Prod.mk.injEq] at h
    obtain ⟨h1, h2⟩ := foldlMin_le t a
    intro x hx
    rw [← h.1]
    rcases List.mem_cons.mp hx with rfl | hx
    · exact h1
    · exact h2 x hx

theorem heapPop_rest_subset {heap : List Entry} {top : Entry} {rest : List Entry}
    (h : heapPop heap = some (top, rest)) : ∀ x ∈ rest, x ∈ heap := by
  intro x hx
  rw [heapPop_rest h] at hx
  exact List.mem_of_mem_erase hx

theorem heapPop_cover {heap : List Entry} {top : Entry} {rest : List Entry}
    (h : heapPop heap = some (top, rest)) : ∀ x ∈ heap, x = top ∨ x ∈ rest := by
  intro x hx
  by_cases hxt : x = top
  · exact Or.inl hxt
  · right
    rw [heapPop_rest h]
    exact (List.mem_erase_of_ne hxt).mpr hx

/-! ## C8: the heuristic is the Euclidean distance -/

/-- C8.  For every pair of cell ids, `h_score` returns the Euclidean
distance `sqrt (dx^2 + dy^2)` between the 2D grid coordinates of the two
cells as given by `cell_id_to_cell` (the float is idealized as the exact
real it denotes). -/
theorem h_score_is_euclidean (w : Window) (cell1 cell2 : Nat) :
    ((h_score w cell1 cell2).g : ℝ) + Real.sqrt ((h_score w cell1 cell2).d : ℝ)
      = Real.sqrt
          ((((w.cell_id_to_cell cell1).1 : ℝ) - ((w.cell_id_to_cell cell2).1 : ℝ)) ^ 2 +
           (((w.cell_id_to_cell cell1).2 : ℝ) - ((w.cell_id_to_cell cell2).2 : ℝ)) ^ 2) := by
  unfold h_score Window.hsq
  have hnn : (0:ℤ) ≤
      ((w.cell_id_to_cell cell1).1 - (w.cell_id_to_cell cell2).1) *
        ((w.cell_id_to_cell cell1).1 - (w.cell_id_to_cell cell2).1) +
      ((w.cell_id_to_cell cell1).2 - (w.cell_id_to_cell cell2).2) *
        ((w.cell_id_to_cell cell1).2 - (w.cell_id_to_cell cell2).2) :=
    add_nonneg (mul_self_nonneg _) (mul_self_nonneg _)
  have hc1 : ((Int.toNat
      (((w.cell_id_to_cell cell1).1 - (w.cell_id_to_cell cell2).1) *
        ((w.cell_id_to_cell cell1).1 - (w.cell_id_to_cell cell2).1) +
      ((w.cell_id_to_cell cell1).2 - (w.cell_id_to_cell cell2).2) *
        ((w.cell_id_to_cell cell1).2 - (w.cell_id_to_cell cell2).2)) : ℕ) : ℝ)
      = ((((w.cell_id_to_cell cell1).1 - (w.cell_id_to_cell cell2).1) *
        ((w.cell_id_to_cell cell1).1 - (w.cell_id_to_cell cell2).1) +
      ((w.cell_id_to_cell cell1).2 - (w.cell_id_to_cell cell2).2) *
        ((w.cell_id_to_cell cell1).2 - (w.cell_id_to_cell cell2).2) : ℤ) : ℝ) := by
    exact_mod_cast congrArg (Int.cast : ℤ → ℝ) (Int.toNat_of_nonneg hnn)
  have hc : ((Int.toNat
      (((w.cell_id_to_cell cell1).1 - (w.cell_id_to_cell cell2).1) *
        ((w.cell_id_to_cell cell1).1 - (w.cell_id_to_cell cell2).1) +
      ((w.cell_id_to_cell cell1).2 - (w.cell_id_to_cell cell2).2) *
        ((w.cell_id_to_cell cell1).2 - (w.cell_id_to_cell cell2).2)) : ℕ) : ℝ)
      = (((w.cell_id_to_cell cell1).1 : ℝ) - ((w.cell_id_to_cell cell2).1 : ℝ)) ^ 2 +
        (((w.cell_id_to_cell cell1).2 : ℝ) - ((w.cell_id_to_cell cell2).2 : ℝ)) ^ 2 := by
    rw [hc1]
    push_cast
    ring
  rw [hc]
  norm_num

/-! ## C6: deterministic tie-break by cell id -/

/-- C6.  Popping the frontier returns a minimum-priority entry and, among
entries whose stored f-score priority is equal (as the real the float
denotes), the one with the lowest cell id: `heapq` compares the
`(f_score, cell_id)` tuples lexicographically. -/
theorem heapPop_tie_break {heap : List Entry} {top : Entry} {rest : List Entry}
    (h : heapPop heap = some (top, rest)) :
    ∀ x ∈ heap, top.1.leR x.1 = true ∧ (x.1.beqR top.1 = true → top.2 ≤ x.2) := by
  intro x hx
  have hmin := heapPop_min h x hx
  rcases hmin with hlt | ⟨heq, hle⟩
  · constructor
    · rw [FS.leR_iff]
      exact le_of_lt hlt
    · intro hbeq
      rw [FS.beqR_iff] at hbeq
      exact absurd hbeq (ne_of_gt hlt)
  · constructor
    · rw [FS.leR_iff]
      exact le_of_eq heq
    · intro _
      exact hle

/-- Witness for C6: in a heap with two entries of equal priority, the
lower cell id is popped first. -/
theorem heapPop_tie_break_witness :
    heapPop [(FS.mk 1 0, 7), (FS.mk 1 0, 3)]
        = some ((FS.mk 1 0, 3), [(FS.mk 1 0, 7)]) ∧
      (FS.mk 1 0).leR (FS.mk 1 0) = true ∧
      ((FS.mk 1 0).beqR (FS.mk 1 0) = true → 3 ≤ 7) :=
  ⟨by decide,
   @heapPop_tie_break [(FS.mk 1 0, 7), (FS.mk 1 0, 3)] (FS.mk 1 0, 3)
     [(FS.mk 1 0, 7)] (by decide) (FS.mk 1 0, 7) (by decide)⟩

/-! ## C10: the heap is never popped while empty -/

/-- Helper for C10: with fuel at least the heap length (what `aStarStep`
passes) the pop loop always succeeds on a non-empty heap whose entries
carry in-range cell ids; in particular it never reaches a pop of an
empty heap. -/
theorem popUntilFresh_isSome (cells : List Node) :
    ∀ (fuel : Nat) (heap : List Entry), heap ≠ [] → heap.length ≤ fuel →
      (∀ en ∈ heap, en.2 < cells.length) →
      (popUntilFresh cells fuel heap).isSome = true := by
  intro fuel
  induction fuel with
  | zero =>
    intro heap hne hlen _
    have : heap = [] := List.length_eq_zero.mp (Nat.le_zero.mp hlen)
    exact absurd this hne
  | succ fuel ih =>
    intro heap hne hlen hid
    rw [popUntilFresh]
    rcases hpop : heapPop heap with _ | ⟨top, rest⟩
    · exact absurd ((heapPop_none_iff heap).mp hpop) hne
    · simp only
      by_cases hre : rest.isEmpty
      · simp [hre]
      · simp only [hre, if_false]
        have htop : top.2 < cells.length := hid top (heapPop_mem hpop)
        rcases hget : cells.get? top.2 with _ | nd
        · rw [List.get?_eq_none] at hget
          omega
        · simp only
          by_cases hfs : fsEq nd.f_score top.1
          · simp [hfs]
          · simp only [hfs, if_false]
            refine ih rest ?_ ?_ ?_
            · intro hrnil
              rw [hrnil] at hre
              simp at hre
            · have := heapPop_length hpop
              omega
            · intro en hen
              exact hid en (heapPop_rest_subset hpop en hen)

/-- C10.  `aStarStep` runs the pop loop as `popUntilFresh cells
heap.length heap`; on every non-empty heap whose entries address
existing records the loop returns normally.  The outer loop guard
(`heap.isEmpty` in `aStarLoop`) ensures the loop is only entered on a
non-empty heap, and the loop itself re-pops only when the heap is still
non-empty, so no pop ever targets an empty frontier. -/
theorem pop_loop_never_pops_empty (cells : List Node) (heap : List Entry)
    (hne : heap ≠ []) (hid : ∀ en ∈ heap, en.2 < cells.length) :
    (popUntilFresh cells heap.length heap).isSome = true :=
  popUntilFresh_isSome cells heap.length heap hne (le_refl _) hid

/-- Witness for C10 at a concrete heap and record list. -/
theorem pop_loop_never_pops_empty_witness :
    ([(FS.mk 3 0, 0)] : List Entry) ≠ [] ∧
      (popUntilFresh [({} : Node)] ([(FS.mk 3 0, 0)] : List Entry).length
        [(FS.mk 3 0, 0)]).isSome = true :=
  ⟨by decide,
   pop_loop_never_pops_empty [({} : Node)] [(FS.mk 3 0, 0)] (by decide) (by decide)⟩

/-! ## C3: lazy deletion of stale heap entries -/

/-- Counterexample to C3 as stated.  The claim says a popped entry whose
stored priority differs from the current f-score of its cell is always
discarded by continuing the pop loop, never marking the cell visited,
for every heap state including when the pop empties the heap.  But the
loop condition is `heap.empty() or cells[current_id].f_score == top[0]`:
when popping the stale entry empties the heap, the loop exits and the
entry is processed.  Here cell 0 has current f-score 2 while the popped
entry carries stale priority 5 and empties the heap, yet the step marks
cell 0 visited and proceeds to expansion. -/
theorem stale_entry_processed_when_heap_empties :
    fsEq (some (FS.mk 2 0)) (FS.mk 5 0) = false ∧
    aStarStep windowOneCell 0 1
        [{ came_from := none, g_score := some 2,
           f_score := some (FS.mk 2 0), visited := false }]
        [(FS.mk 5 0, 0)]
      = .cont
          [{ came_from := none, g_score := some 2,
             f_score := some (FS.mk 2 0), visited := true }] [] := by
  constructor
  · decide
  · decide

/-- C3 amended: a popped stale entry is discarded and the pop loop
continues as long as the heap is non-empty after the pop; equivalently,
whenever the pop loop hands an entry to the rest of the iteration while
the heap is still non-empty, that entry is fresh (its stored priority
equals the current f-score of its cell).  Only the final pop that
empties the heap can hand over a stale entry. -/
theorem pop_loop_discards_stale (cells : List Node) :
    ∀ (fuel : Nat) (heap : List Entry) (top : Entry) (rest : List Entry),
      popUntilFresh cells fuel heap = some (top, rest) → rest ≠ [] →
      ∃ nd, cells.get? top.2 = some nd ∧ fsEq nd.f_score top.1 = true := by
  intro fuel
  induction fuel with
  | zero =>
    intro heap top rest h _
    simp [popUntilFresh] at h
  | succ fuel ih =>
    intro heap top rest h hne
    rw [popUntilFresh] at h
    rcases hpop : heapPop heap with _ | ⟨t0, r0⟩
    · rw [hpop] at h
      simp at h
    · rw [hpop] at h
      simp only at h
      by_cases hre : r0.isEmpty
      · rw [if_pos hre] at h
        rcases h with ⟨rfl, rfl⟩
        rw [List.isEmpty_iff] at hre
        exact absurd hre hne
      · rw [if_neg hre] at h
        rcases hget : cells.get? t0.2 with _ | nd
        · rw [hget] at h
          simp at h
        · rw [hget] at h
          simp only at h
          by_cases hfs : fsEq nd.f_score t0.1
          · rw [if_pos hfs] at h
            rcases h with ⟨rfl, rfl⟩
            exact ⟨nd, hget, hfs⟩
          · rw [if_neg hfs] at h
            exact ih r0 top rest h hne

/-- Witness for the amended C3: a fresh entry handed over with a
non-empty remaining heap indeed matches its cell. -/
theorem pop_loop_discards_stale_witness :
    popUntilFresh [Node.mk none (some 1) (some (FS.mk 1 0)) false] 2
        [(FS.mk 5 0, 0), (FS.mk 1 0, 0)]
      = some ((FS.mk 1 0, 0), [(FS.mk 5 0, 0)]) ∧
    ([(FS.mk 5 0, 0)] : List Entry) ≠ [] ∧
    ∃ nd, ([Node.mk none (some 1) (some (FS.mk 1 0)) false] : List Node).get? 0
        = some nd ∧ fsEq nd.f_score (FS.mk 1 0) = true :=
  ⟨by decide, by decide,
   pop_loop_discards_stale [Node.mk none (some 1) (some (FS.mk 1 0)) false] 2
     [(FS.mk 5 0, 0), (FS.mk 1 0, 0)] (FS.mk 1 0, 0) [(FS.mk 5 0, 0)]
     (by decide) (by decide)⟩

/-! ## C2: the shared default list of `Heap.__init__` -/

/-- Evaluation of C2 at the failing input.  The first `a_star` call on
the 2-by-2 window with start 0 and end 1 returns the path `[0, 1]` but
leaves the entry `(1 + sqrt 2, 2)` in the shared default list of
`Heap.__init__`, so the second invocation starts with a non-empty
frontier inherited from the first (and leaves two copies behind): the
per-invocation frontier lifecycle the claim asserts does not hold.  The
two results happen to coincide here, but the frontier state persists. -/
theorem heap_default_list_persists :
    a_star windowTwoByTwo [] = some ([0, 1], [(FS.mk 1 2, 2)]) ∧
    a_star windowTwoByTwo [(FS.mk 1 2, 2)]
      = some ([0, 1], [(FS.mk 1 2, 2), (FS.mk 1 2, 2)]) := by
  constructor
  · decide
  · decide

/-! ## C7: get_neighbours returns exactly the valid adjacent cells -/

/-- The id of in-bounds coordinates is nonnegative. -/
theorem cell_to_cell_id_nonneg (w : Window) (c : Int × Int)
    (h : w.out_of_bounds c = false) : 0 ≤ w.cell_to_cell_id c := by
  unfold Window.out_of_bounds at h
  simp only [Bool.or_eq_false_iff, decide_eq_false_iff_not, not_lt] at h
  obtain ⟨⟨⟨h1, h2⟩, _⟩, _⟩ := h
  unfold Window.cell_to_cell_id
  have : (0:ℤ) ≤ c.2 * (w.width : Int) / (Window.cell_width : Int) := by
    apply Int.ediv_nonneg
    · exact mul_nonneg h2 (by positivity)
    · norm_num [Window.cell_width]
  omega

/-- C7.  For an in-bounds cell id, `get_neighbours` returns exactly the
ids of those of the four axis-aligned adjacent coordinates (north,
east, south, west) that are in bounds and hold no obstacle; and the
output is determined by the grid state alone (width, height and the
cells dictionary), hence deterministic for a fixed grid state. -/
theorem get_neighbours_exact (w : Window) (i : Nat)
    (hin : w.out_of_bounds (w.cell_id_to_cell i) = false) :
    (∀ j : Nat, j ∈ w.get_neighbours i ↔
      ∃ c ∈ [((w.cell_id_to_cell i).1, (w.cell_id_to_cell i).2 - 1),
             ((w.cell_id_to_cell i).1 + 1, (w.cell_id_to_cell i).2),
             ((w.cell_id_to_cell i).1, (w.cell_id_to_cell i).2 + 1),
             ((w.cell_id_to_cell i).1 - 1, (w.cell_id_to_cell i).2)],
        w.out_of_bounds c = false ∧
        w.obstacle_exists (w.cell_to_cell_id c).toNat = false ∧
        j = (w.cell_to_cell_id c).toNat) ∧
    (∀ w2 : Window, w2.width = w.width → w2.height = w.height →
      w2.cells = w.cells → w2.get_neighbours i = w.get_neighbours i) := by
  constructor
  · intro j
    unfold Window.get_neighbours
    simp only [List.mem_map, List.mem_filter, Bool.and_eq_true, Bool.not_eq_true']
    constructor
    · rintro ⟨c, ⟨hc, hoob, hobs⟩, rfl⟩
      refine ⟨c, hc, hoob, ?_, rfl⟩
      unfold Window.obstacle_existsZ at hobs
      rw [if_neg (not_lt.mpr (cell_to_cell_id_nonneg w c hoob))] at hobs
      exact hobs
    · rintro ⟨c, hc, hoob, hobs, rfl⟩
      refine ⟨c, ⟨hc, hoob, ?_⟩, rfl⟩
      unfold Window.obstacle_existsZ
      rw [if_neg (not_lt.mpr (cell_to_cell_id_nonneg w c hoob))]
      exact hobs
  · intro w2 hw hh hc
    unfold Window.get_neighbours Window.cell_id_to_cell Window.out_of_bounds
      Window.cell_to_cell_id Window.obstacle_existsZ Window.obstacle_exists
    rw [hw, hh, hc]

/-- Witness for C7 on the 2-by-2 window at cell 0. -/
theorem get_neighbours_exact_witness :
    windowTwoByTwo.out_of_bounds (windowTwoByTwo.cell_id_to_cell 0) = false ∧
    ((∀ j : Nat, j ∈ windowTwoByTwo.get_neighbours 0 ↔
      ∃ c ∈ [((windowTwoByTwo.cell_id_to_cell 0).1,
               (windowTwoByTwo.cell_id_to_cell 0).2 - 1),
             ((windowTwoByTwo.cell_id_to_cell 0).1 + 1,
               (windowTwoByTwo.cell_id_to_cell 0).2),
             ((windowTwoByTwo.cell_id_to_cell 0).1,
               (windowTwoByTwo.cell_id_to_cell 0).2 + 1),
             ((windowTwoByTwo.cell_id_to_cell 0).1 - 1,
               (windowTwoByTwo.cell_id_to_cell 0).2)],
        windowTwoByTwo.out_of_bounds c = false ∧
        windowTwoByTwo.obstacle_exists (windowTwoByTwo.cell_to_cell_id c).toNat
          = false ∧
        j = (windowTwoByTwo.cell_to_cell_id c).toNat) ∧
    (∀ w2 : Window, w2.width = windowTwoByTwo.width →
      w2.height = windowTwoByTwo.height → w2.cells = windowTwoByTwo.cells →
      w2.get_neighbours 0 = windowTwoByTwo.get_neighbours 0)) :=
  ⟨by decide, get_neighbours_exact windowTwoByTwo 0 (by decide)⟩

/-! ## C5: equal start and end give the empty path -/

/-- C5.  When the defined start and end cells coincide (an in-bounds
cell id, which every id the window ever stores is), `a_star` returns
the empty sequence: the start is popped first, equals the end, and
`construct_path` returns `[]` for `start == end`. -/
theorem a_star_start_eq_end (w : Window) (s : Nat)
    (hs : w.start = some s) (he : w.end_ = some s)
    (hlt : s < w.get_num_cells) :
    a_star w [] = some ([], []) := by
  have hget : (List.replicate w.get_num_cells ({} : Node)).get? s = some {} := by
    rw [List.get?_eq_getElem?, List.getElem?_replicate, if_pos hlt]
  simp only [a_star, hs, he, hget, List.nil_append, List.length_cons,
    List.length_nil]
  rw [aStarLoop]
  simp only [List.isEmpty_cons, if_false]
  rw [aStarStep]
  simp only [List.length_cons, List.length_nil]
  rw [popUntilFresh]
  simp only [heapPop, List.foldl_nil, List.erase_cons_head, List.isEmpty_nil,
    if_true]
  simp [construct_path]

/-- Witness for C5: a window whose start and end are both cell 2. -/
theorem a_star_start_eq_end_witness :
    (Window.mk 50 50 (fun _ => none) (some 2) (some 2)).start = some 2 ∧
    (Window.mk 50 50 (fun _ => none) (some 2) (some 2)).end_ = some 2 ∧
    2 < (Window.mk 50 50 (fun _ => none) (some 2) (some 2)).get_num_cells ∧
    a_star (Window.mk 50 50 (fun _ => none) (some 2) (some 2)) [] = some ([], []) :=
  ⟨rfl, rfl, by decide,
   a_star_start_eq_end (Window.mk 50 50 (fun _ => none) (some 2) (some 2)) 2
     rfl rfl (by decide)⟩

/-! ## C9: the engine reads only the grid interface and mutates nothing -/

/-- Windows that agree on geometry and on obstacle membership list the
same neighbours. -/
theorem get_neighbours_congr (w1 w2 : Window)
    (hw : w1.width = w2.width) (hh : w1.height = w2.height)
    (hobs : ∀ x, w1.obstacle_exists x = w2.obstacle_exists x) :
    ∀ i, w1.get_neighbours i = w2.get_neighbours i := by
  intro i
  unfold Window.get_neighbours Window.cell_id_to_cell Window.out_of_bounds
    Window.cell_to_cell_id Window.obstacle_existsZ
  rw [hw, hh]
  simp only [hobs]

/-- C9.  The embedding of `a_star` is a pure function of the window (it
returns a value and leaves its argument untouched, exactly as the
Python code never assigns to any attribute of `window`), and its result
depends only on the members the engine reads: `start`, `end`,
`get_num_cells`, `get_neighbours` and `cell_id_to_cell` (the last via
`h_score`).  Two windows that agree on those five observables produce
identical runs, whatever else (cells dictionary, colours, geometry)
differs. -/
theorem a_star_reads_only_interface (w1 w2 : Window)
    (hs : w1.start = w2.start) (he : w1.end_ = w2.end_)
    (hn : w1.get_num_cells = w2.get_num_cells)
    (hnb : ∀ i, w1.get_neighbours i = w2.get_neighbours i)
    (hcc : ∀ i, w1.cell_id_to_cell i = w2.cell_id_to_cell i) :
    ∀ data, a_star w1 data = a_star w2 data := by
  have hsq : Window.hsq w1 = Window.hsq w2 := by
    funext a b
    unfold Window.hsq
    rw [hcc a, hcc b]
  have hhs : h_score w1 = h_score w2 := by
    funext a b
    unfold h_score
    rw [hsq]
  have hrelax : relaxStep w1 = relaxStep w2 := by
    funext e cur st nb
    unfold relaxStep
    rw [hsq]
  have hexp : expandList w1 = expandList w2 := by
    funext e cur l
    induction l with
    | nil => funext st; rw [expandList, expandList]
    | cons nb rest ih =>
      funext st
      rw [expandList, expandList, hrelax]
      rcases relaxStep w2 e cur st nb with _ | st2
      · rfl
      · exact congrFun ih st2
  have hstep : aStarStep w1 = aStarStep w2 := by
    funext s e cells heap
    unfold aStarStep
    simp only [hexp, hnb]
  have hloop : aStarLoop w1 = aStarLoop w2 := by
    funext s e fuel
    induction fuel with
    | zero => funext cells heap; rw [aStarLoop, aStarLoop]
    | succ fuel ih =>
      funext cells heap
      rw [aStarLoop, aStarLoop, hstep, ih]
  intro data
  unfold a_star
  rw [hs, he, hn, hhs, hloop]

/-- Witness for C9: two windows whose cells dictionaries differ (cell 3
is drawn cyan in one and magenta in the other, neither an obstacle)
yield identical searches. -/
theorem a_star_reads_only_interface_witness :
    (∀ x, (Window.mk 50 50 (fun i => if i = 3 then some Colours.START else none)
        (some 0) (some 1)).obstacle_exists x
      = (Window.mk 50 50 (fun i => if i = 3 then some Colours.END else none)
        (some 0) (some 1)).obstacle_exists x) ∧
    ∀ data,
      a_star (Window.mk 50 50 (fun i => if i = 3 then some Colours.START else none)
        (some 0) (some 1)) data
      = a_star (Window.mk 50 50 (fun i => if i = 3 then some Colours.END else none)
        (some 0) (some 1)) data := by
  have hobs : ∀ x, (Window.mk 50 50 (fun i => if i = 3 then some Colours.START else none)
        (some 0) (some 1)).obstacle_exists x
      = (Window.mk 50 50 (fun i => if i = 3 then some Colours.END else none)
        (some 0) (some 1)).obstacle_exists x := by
    intro x
    unfold Window.obstacle_exists
    by_cases hx : x = 3
    · simp [hx]
    · simp [hx]
  refine ⟨hobs, ?_⟩
  exact a_star_reads_only_interface _ _ rfl rfl rfl
    (get_neighbours_congr _ _ rfl rfl hobs) (fun _ => rfl)

/-! ## Geometry facts used by the search invariants -/

/-- Neighbours are never obstacles (the filter removed them). -/
theorem mem_get_neighbours_obstacle (w : Window) {a b : Nat}
    (hb : b ∈ w.get_neighbours a) : w.obstacle_exists b = false := by
  unfold Window.get_neighbours at hb
  simp only [List.mem_map, List.mem_filter, Bool.and_eq_true,
    Bool.not_eq_true'] at hb
  obtain ⟨c, ⟨_, hoob, hobs⟩, rfl⟩ := hb
  unfold Window.obstacle_existsZ at hobs
  rw [if_neg (not_lt.mpr (cell_to_cell_id_nonneg w c hoob))] at hobs
  exact hobs

/-- When the cell width divides the window width (as it does for every
window the program builds), the id of in-bounds coordinates maps back
to the same coordinates and is in range. -/
theorem cell_id_roundtrip (w : Window) (hdiv : Window.cell_width ∣ w.width)
    {c : Int × Int} (hoob : w.out_of_bounds c = false) :
    w.cell_id_to_cell ((w.cell_to_cell_id c).toNat) = c ∧
      (w.cell_to_cell_id c).toNat < w.get_num_cells := by
  have hcw : (0:ℤ) < (Window.cell_width : ℕ) := by norm_num [Window.cell_width]
  unfold Window.out_of_bounds at hoob
  simp only [Bool.or_eq_false_iff, decide_eq_false_iff_not, not_lt] at hoob
  obtain ⟨⟨⟨hx0, hy0⟩, hx1⟩, hy1⟩ := hoob
  set W : Nat := w.width / Window.cell_width with hW
  set H : Nat := w.height / Window.cell_height with hH
  have hx1' : c.1 ≤ (W:ℤ) - 1 := hx1
  have hy1' : c.2 ≤ (H:ℤ) - 1 := hy1
  have hWpos : (1:ℤ) ≤ (W:ℤ) := by omega
  have hwidth : (w.width : ℤ) = (W:ℤ) * (Window.cell_width : ℕ) := by
    have := Nat.div_mul_cancel hdiv
    exact_mod_cast this.symm
  have hid : w.cell_to_cell_id c = c.1 + c.2 * (W:ℤ) := by
    unfold Window.cell_to_cell_id
    rw [hwidth, ← mul_assoc, Int.mul_ediv_cancel _ (by omega)]
  have hidnn : 0 ≤ w.cell_to_cell_id c := by
    rw [hid]
    have : 0 ≤ c.2 * (W:ℤ) := mul_nonneg hy0 (by omega)
    omega
  have hcast : ((w.cell_to_cell_id c).toNat : ℤ) = c.1 + c.2 * (W:ℤ) := by
    rw [Int.toNat_of_nonneg hidnn, hid]
  constructor
  · unfold Window.cell_id_to_cell
    rw [← hW]
    have hmod : (((w.cell_to_cell_id c).toNat % W : ℕ) : ℤ) = c.1 := by
      push_cast
      rw [hcast, Int.add_mul_emod_self]
      exact Int.emod_eq_of_lt hx0 (by omega)
    have hdivv : (((w.cell_to_cell_id c).toNat / W : ℕ) : ℤ) = c.2 := by
      push_cast
      rw [hcast, Int.add_mul_ediv_right _ _ (by omega : (W:ℤ) ≠ 0),
        Int.ediv_eq_zero_of_lt hx0 (by omega)]
      omega
    refine Prod.ext_iff.mpr ⟨?_, ?_⟩
    · simpa using hmod
    · simpa using hdivv
  · have hlt : ((w.cell_to_cell_id c).toNat : ℤ) < (W:ℤ) * (H:ℤ) := by
      rw [hcast]
      nlinarith [mul_le_mul_of_nonneg_right hy1' (by omega : (0:ℤ) ≤ (W:ℤ))]
    unfold Window.get_num_cells
    rw [← hW, ← hH]
    exact_mod_cast hlt

/-- Elimination for neighbour membership (under the divisibility
condition): a neighbour is in range, not an obstacle, and its
coordinates are one of the four axis-aligned adjacents. -/
theorem mem_get_neighbours_elim (w : Window) (hdiv : Window.cell_width ∣ w.width)
    {a b : Nat} (hb : b ∈ w.get_neighbours a) :
    b < w.get_num_cells ∧ w.obstacle_exists b = false ∧
    (w.cell_id_to_cell b = ((w.cell_id_to_cell a).1, (w.cell_id_to_cell a).2 - 1) ∨
     w.cell_id_to_cell b = ((w.cell_id_to_cell a).1 + 1, (w.cell_id_to_cell a).2) ∨
     w.cell_id_to_cell b = ((w.cell_id_to_cell a).1, (w.cell_id_to_cell a).2 + 1) ∨
     w.cell_id_to_cell b = ((w.cell_id_to_cell a).1 - 1, (w.cell_id_to_cell a).2)) := by
  have hobs := mem_get_neighbours_obstacle w hb
  unfold Window.get_neighbours at hb
  simp only [List.mem_map, List.mem_filter, Bool.and_eq_true,
    Bool.not_eq_true', List.mem_cons, List.mem_singleton] at hb
  obtain ⟨c, ⟨hc, hoob, _⟩, rfl⟩ := hb
  obtain ⟨hrt, hlt⟩ := cell_id_roundtrip w hdiv hoob
  refine ⟨hlt, hobs, ?_⟩
  rw [hrt]
  rcases hc with rfl | rfl | rfl | hc
  · exact Or.inl rfl
  · exact Or.inr (Or.inl rfl)
  · exact Or.inr (Or.inr (Or.inl rfl))
  · simp only [List.not_mem_nil, or_false] at hc
    rw [hc]
    exact Or.inr (Or.inr (Or.inr rfl))

/-- One unit step moves the Euclidean norm by at most one. -/
theorem sqrt_sq_add_sq_step (x y : ℝ) :
    Real.sqrt (x ^ 2 + y ^ 2) ≤ 1 + Real.sqrt ((x - 1) ^ 2 + y ^ 2) := by
  have hu0 : (0:ℝ) ≤ (x - 1) ^ 2 + y ^ 2 := by positivity
  have hs0 : (0:ℝ) ≤ Real.sqrt ((x - 1) ^ 2 + y ^ 2) := Real.sqrt_nonneg _
  have hsq : Real.sqrt ((x - 1) ^ 2 + y ^ 2) ^ 2 = (x - 1) ^ 2 + y ^ 2 :=
    Real.sq_sqrt hu0
  rw [Real.sqrt_le_iff]
  constructor
  · linarith
  · have hxm : x - 1 ≤ Real.sqrt ((x - 1) ^ 2 + y ^ 2) := by
      by_cases hx : x ≤ 1
      · linarith
      · have h1 : x - 1 = Real.sqrt ((x - 1) ^ 2) := by
          rw [Real.sqrt_sq (by linarith)]
        rw [h1]
        exact Real.sqrt_le_sqrt (by nlinarith)
    nlinarith

/-- Stepping to a neighbour changes the Euclidean heuristic by at most
one (consistency of the heuristic). -/
theorem hsq_step (w : Window) (hdiv : Window.cell_width ∣ w.width)
    {a b : Nat} (e : Nat) (hb : b ∈ w.get_neighbours a) :
    Real.sqrt ((w.hsq a e : ℕ) : ℝ) ≤ 1 + Real.sqrt ((w.hsq b e : ℕ) : ℝ) := by
  obtain ⟨-, -, hco⟩ := mem_get_neighbours_elim w hdiv hb
  have hcast : ∀ p q : Nat, ((w.hsq p q : ℕ) : ℝ)
      = (((w.cell_id_to_cell p).1 : ℝ) - ((w.cell_id_to_cell q).1 : ℝ)) ^ 2 +
        (((w.cell_id_to_cell p).2 : ℝ) - ((w.cell_id_to_cell q).2 : ℝ)) ^ 2 := by
    intro p q
    unfold Window.hsq
    have hnn : (0:ℤ) ≤
        ((w.cell_id_to_cell p).1 - (w.cell_id_to_cell q).1) *
          ((w.cell_id_to_cell p).1 - (w.cell_id_to_cell q).1) +
        ((w.cell_id_to_cell p).2 - (w.cell_id_to_cell q).2) *
          ((w.cell_id_to_cell p).2 - (w.cell_id_to_cell q).2) :=
      add_nonneg (mul_self_nonneg _) (mul_self_nonneg _)
    have h1 : ((Int.toNat
        (((w.cell_id_to_cell p).1 - (w.cell_id_to_cell q).1) *
          ((w.cell_id_to_cell p).1 - (w.cell_id_to_cell q).1) +
        ((w.cell_id_to_cell p).2 - (w.cell_id_to_cell q).2) *
          ((w.cell_id_to_cell p).2 - (w.cell_id_to_cell q).2)) : ℕ) : ℝ)
        = (((((w.cell_id_to_cell p).1 - (w.cell_id_to_cell q).1) *
          ((w.cell_id_to_cell p).1 - (w.cell_id_to_cell q).1) +
        ((w.cell_id_to_cell p).2 - (w.cell_id_to_cell q).2) *
          ((w.cell_id_to_cell p).2 - (w.cell_id_to_cell q).2)) : ℤ) : ℝ) := by
      exact_mod_cast congrArg (Int.cast : ℤ → ℝ) (Int.toNat_of_nonneg hnn)
    rw [h1]
    push_cast
    ring
  rw [hcast, hcast]
  set X : ℝ := ((w.cell_id_to_cell a).1 : ℝ) - ((w.cell_id_to_cell e).1 : ℝ)
  set Y : ℝ := ((w.cell_id_to_cell a).2 : ℝ) - ((w.cell_id_to_cell e).2 : ℝ)
  rcases hco with hc | hc | hc | hc
  · have h1 : ((w.cell_id_to_cell b).1 : ℝ) = ((w.cell_id_to_cell a).1 : ℝ) := by
      rw [hc]
    have h2 : ((w.cell_id_to_cell b).2 : ℝ)
        = ((w.cell_id_to_cell a).2 : ℝ) - 1 := by
      rw [hc]; push_cast; ring
    rw [h1, h2]
    have : ((w.cell_id_to_cell a).2 : ℝ) - 1 - ((w.cell_id_to_cell e).2 : ℝ)
        = Y - 1 := by ring
    rw [this]
    calc Real.sqrt (X ^ 2 + Y ^ 2) = Real.sqrt (Y ^ 2 + X ^ 2) := by ring_nf
      _ ≤ 1 + Real.sqrt ((Y - 1) ^ 2 + X ^ 2) := sqrt_sq_add_sq_step Y X
      _ = 1 + Real.sqrt (X ^ 2 + (Y - 1) ^ 2) := by ring_nf
  · have h1 : ((w.cell_id_to_cell b).1 : ℝ)
        = ((w.cell_id_to_cell a).1 : ℝ) + 1 := by
      rw [hc]; push_cast; ring
    have h2 : ((w.cell_id_to_cell b).2 : ℝ) = ((w.cell_id_to_cell a).2 : ℝ) := by
      rw [hc]
    rw [h1, h2]
    have h3 : ((w.cell_id_to_cell a).1 : ℝ) + 1 - ((w.cell_id_to_cell e).1 : ℝ)
        = X + 1 := by ring
    rw [h3]
    have h4 : X ^ 2 = (-X) ^ 2 := by ring
    have h5 : (X + 1) ^ 2 = (-X - 1) ^ 2 := by ring
    rw [h4, h5]
    exact sqrt_sq_add_sq_step (-X) Y
  · have h1 : ((w.cell_id_to_cell b).1 : ℝ) = ((w.cell_id_to_cell a).1 : ℝ) := by
      rw [hc]
    have h2 : ((w.cell_id_to_cell b).2 : ℝ)
        = ((w.cell_id_to_cell a).2 : ℝ) + 1 := by
      rw [hc]; push_cast; ring
    rw [h1, h2]
    have h3 : ((w.cell_id_to_cell a).2 : ℝ) + 1 - ((w.cell_id_to_cell e).2 : ℝ)
        = Y + 1 := by ring
    rw [h3]
    have h4 : Y ^ 2 = (-Y) ^ 2 := by ring
    have h5 : (Y + 1) ^ 2 = (-Y - 1) ^ 2 := by ring
    calc Real.sqrt (X ^ 2 + Y ^ 2) = Real.sqrt ((-Y) ^ 2 + X ^ 2) := by ring_nf
      _ ≤ 1 + Real.sqrt ((-Y - 1) ^ 2 + X ^ 2) := sqrt_sq_add_sq_step (-Y) X
      _ = 1 + Real.sqrt (X ^ 2 + (Y + 1) ^ 2) := by ring_nf
  · have h1 : ((w.cell_id_to_cell b).1 : ℝ)
        = ((w.cell_id_to_cell a).1 : ℝ) - 1 := by
      rw [hc]; push_cast; ring
    have h2 : ((w.cell_id_to_cell b).2 : ℝ) = ((w.cell_id_to_cell a).2 : ℝ) := by
      rw [hc]
    rw [h1, h2]
    have h3 : ((w.cell_id_to_cell a).1 : ℝ) - 1 - ((w.cell_id_to_cell e).1 : ℝ)
        = X - 1 := by ring
    rw [h3]
    exact sqrt_sq_add_sq_step X Y

/-! ## Further facts about f-score comparison -/

theorem beqR_refl (a : FS) : a.beqR a = true := (FS.beqR_iff a a).mpr rfl

/-- Equal real denotations with the same radicand force equal integer
parts. -/
theorem beqR_same_d {k d : Nat} {f : FS} (hd : f.d = d)
    (h : (FS.mk k d).beqR f = true) : f.g = k := by
  rw [FS.beqR_iff] at h
  simp only [hd] at h
  have : ((k : ℕ) : ℝ) = (f.g : ℝ) := by
    have := h
    simp only at this
    linarith
  exact_mod_cast this.symm

theorem entryRel_le_real {a b : Entry} (h : entryRel a b) :
    (a.1.g : ℝ) + Real.sqrt (a.1.d : ℝ) ≤ (b.1.g : ℝ) + Real.sqrt (b.1.d : ℝ) := by
  rcases h with h | ⟨h, _⟩
  · exact le_of_lt h
  · exact le_of_eq h

/-! ## The pop loop specification -/

/-- What the pop loop returns: an entry of the heap, the remaining heap
(a sub-multiset of the heap with that entry removed), such that the
returned entry is least among the remaining ones, every fresh entry
other than the returned one survives, and the returned entry is fresh
unless the heap has been emptied. -/
theorem popUntilFresh_spec (cells : List Node) :
    ∀ (fuel : Nat) (heap : List Entry), heap ≠ [] → heap.length ≤ fuel →
      (∀ en ∈ heap, en.2 < cells.length) →
      ∃ top rest, popUntilFresh cells fuel heap = some (top, rest) ∧
        top ∈ heap ∧
        rest.Sublist (heap.erase top) ∧
        (∀ x ∈ rest, entryRel top x) ∧
        (∀ x ∈ heap, freshE cells x → x ≠ top → x ∈ rest) ∧
        (rest = [] ∨ freshE cells top) := by
  intro fuel
  induction fuel with
  | zero =>
    intro heap hne hlen _
    have : heap = [] := List.length_eq_zero.mp (Nat.le_zero.mp hlen)
    exact absurd this hne
  | succ fuel ih =>
    intro heap hne hlen hid
    rw [popUntilFresh]
    rcases hpop : heapPop heap with _ | ⟨t0, r0⟩
    · exact absurd ((heapPop_none_iff heap).mp hpop) hne
    · simp only
      have hmem0 := heapPop_mem hpop
      have hrest0 := heapPop_rest hpop
      by_cases hre : r0.isEmpty
      · rw [if_pos hre]
        rw [List.isEmpty_iff] at hre
        refine ⟨t0, r0, rfl, hmem0, ?_, ?_, ?_, Or.inl hre⟩
        · rw [hre]; exact List.nil_sublist _
        · rw [hre]; simp
        · intro x hx _ hxne
          rw [hrest0]
          exact (List.mem_erase_of_ne hxne).mpr hx
      · rw [if_neg hre]
        have htid : t0.2 < cells.length := hid t0 hmem0
        rcases hget : cells.get? t0.2 with _ | nd
        · rw [List.get?_eq_none] at hget
          omega
        · simp only
          by_cases hfs : fsEq nd.f_score t0.1
          · rw [if_pos hfs]
            refine ⟨t0, r0, rfl, hmem0, ?_, ?_, ?_, Or.inr ⟨nd, hget, hfs⟩⟩
            · rw [hrest0]
            · intro x hx
              exact heapPop_min hpop x (heapPop_rest_subset hpop x hx)
            · intro x hx _ hxne
              rw [hrest0]
              exact (List.mem_erase_of_ne hxne).mpr hx
          · rw [if_neg hfs]
            have hr0ne : r0 ≠ [] := by
              intro hr
              rw [hr] at hre
              simp at hre
            have hr0len : r0.length ≤ fuel := by
              have := heapPop_length hpop
              omega
            have hr0id : ∀ en ∈ r0, en.2 < cells.length := fun en hen =>
              hid en (heapPop_rest_subset hpop en hen)
            obtain ⟨top, rest, heq, hmem, hsub, hmin, hsurv, hlast⟩ :=
              ih r0 hr0ne hr0len hr0id
            have ht0top : t0 ≠ top ∨ t0 = top := (ne_or_eq t0 top)
            refine ⟨top, rest, heq, heapPop_rest_subset hpop top hmem, ?_, hmin, ?_, hlast⟩
            · have h1 : r0.erase top = (heap.erase top).erase t0 := by
                rw [hrest0, List.erase_comm]
              exact hsub.trans (h1 ▸ List.erase_sublist _ _)
            · intro x hx hfx hxne
              have hxt0 : x ≠ t0 := by
                intro hxeq
                apply hfs
                obtain ⟨nd2, hget2, hfs2⟩ := hfx
                rw [hxeq] at hget2 hfs2
                rw [hget] at hget2
                cases hget2
                exact hfs2
              have : x ∈ r0 := by
                rw [hrest0]
                exact (List.mem_erase_of_ne hxt0).mpr hx
              exact hsurv x this hfx hxne

/-! ## Freshness, staleness and the pop optimality lemma -/

/-- A fresh entry in the heap belongs to an unvisited cell: entries of
visited cells are strictly stale. -/
theorem top_fresh_unvisited {w : Window} {s e : Nat} {cells : List Node}
    {heap : List Entry} (inv : AStarInv w s e cells heap)
    {top : Entry} (htop : top ∈ heap) (hfresh : freshE cells top) :
    visB cells top.2 = false := by
  by_contra hvis
  rw [Bool.not_eq_false] at hvis
  obtain ⟨k, hg, hk⟩ := inv.visStale top htop hvis
  obtain ⟨nd, hget, hfs⟩ := hfresh
  have hf := inv.fg top.2 k hg
  unfold fOf at hf
  rw [hget] at hf
  simp only [Option.bind_eq_bind, Option.some_bind] at hf
  rw [hf] at hfs
  simp only [fsEq] at hfs
  obtain ⟨k2, hg2, hle2, hd, hlt2⟩ := inv.heapEnt top htop
  rw [hg] at hg2
  cases hg2
  have := beqR_same_d hd hfs
  omega

/-- A stale entry handed over by the pop loop belongs to a visited
cell: the fresh copy of an unvisited cell would still be in the heap,
but the heap has been emptied. -/
theorem top_stale_visited {w : Window} {s e : Nat} {cells : List Node}
    {heap : List Entry} (inv : AStarInv w s e cells heap)
    {top : Entry} (htop : top ∈ heap)
    (hsurv : ∀ x ∈ heap, freshE cells x → x ≠ top → x ∈ ([] : List Entry))
    (hstale : ¬ freshE cells top) :
    visB cells top.2 = true := by
  by_contra hvis
  rw [Bool.not_eq_true] at hvis
  obtain ⟨k, hg, _, hd, _⟩ := inv.heapEnt top htop
  have hfe := inv.fresh top.2 k hg hvis
  have hfr : freshE cells (FS.mk k (w.hsq top.2 e), top.2) := by
    unfold gOf at hg
    rcases hget : cells.get? top.2 with _ | nd
    · rw [hget] at hg; simp at hg
    · refine ⟨nd, hget, ?_⟩
      have hf := inv.fg top.2 k (by unfold gOf; rw [hget]; exact hget ▸ hg)
      unfold fOf at hf
      rw [hget] at hf
      simp only [Option.bind_eq_bind, Option.some_bind] at hf
      rw [hf]
      simp only [fsEq]
      exact beqR_refl _
  by_cases hfe_top : (FS.mk k (w.hsq top.2 e), top.2) = top
  · exact hstale (hfe_top ▸ hfr)
  · exact absurd (hsurv _ hfe hfr hfe_top) (List.not_mem_nil _)

/-- After the pop, the loop entry is a real lower bound for
`g + h` of every discovered unvisited cell. -/
theorem pop_reach {w : Window} {s e : Nat} {cells : List Node}
    {heap : List Entry} (inv : AStarInv w s e cells heap)
    {top : Entry} {rest : List Entry} (htop : top ∈ heap)
    (hmin : ∀ x ∈ rest, entryRel top x)
    (hsurv : ∀ x ∈ heap, freshE cells x → x ≠ top → x ∈ rest)
    {i k : Nat} (hk : gOf cells i = some k) (hvi : visB cells i = false) :
    (top.1.g : ℝ) + Real.sqrt (top.1.d : ℝ)
      ≤ (k : ℝ) + Real.sqrt ((w.hsq i e : ℕ) : ℝ) := by
  have hfe := inv.fresh i k hk hvi
  have hfr : freshE cells (FS.mk k (w.hsq i e), i) := by
    unfold gOf at hk
    rcases hget : cells.get? i with _ | nd
    · rw [hget] at hk; simp at hk
    · refine ⟨nd, hget, ?_⟩
      have hf := inv.fg i k (by unfold gOf; rw [hget]; exact hget ▸ hk)
      unfold fOf at hf
      rw [hget] at hf
      simp only [Option.bind_eq_bind, Option.some_bind] at hf
      rw [hf]
      simp only [fsEq]
      exact beqR_refl _
  by_cases hfe_top : (FS.mk k (w.hsq i e), i) = top
  · rw [← hfe_top]
  · exact entryRel_le_real (hmin _ (hsurv _ hfe hfr hfe_top))

/-- The A-star pop lemma: the popped entry's real priority is at most
`t + h(i)` for every walk of length `t` ending in an unvisited cell
`i`.  By induction along the walk, using the optimality of closed
cells, the relaxation of their outgoing edges, and the consistency of
the Euclidean heuristic. -/
theorem key_pop {w : Window} {s e : Nat} {cells : List Node}
    {heap : List Entry} (hdiv : Window.cell_width ∣ w.width)
    (inv : AStarInv w s e cells heap)
    {top : Entry} {rest : List Entry} (htop : top ∈ heap)
    (hmin : ∀ x ∈ rest, entryRel top x)
    (hsurv : ∀ x ∈ heap, freshE cells x → x ≠ top → x ∈ rest) :
    ∀ {i t : Nat}, Wk w s i t → visB cells i = false →
      (top.1.g : ℝ) + Real.sqrt (top.1.d : ℝ)
        ≤ (t : ℝ) + Real.sqrt ((w.hsq i e : ℕ) : ℝ) := by
  intro i t hwk
  induction hwk with
  | nil =>
    intro hvs
    have := pop_reach inv htop hmin hsurv inv.gs hvs
    simpa using this
  | @cons a b n hwk hb ih =>
    intro hvb
    by_cases hva : visB cells a = true
    · obtain ⟨ka, hga, hmina⟩ := inv.visMin a hva
      have hka : ka ≤ n := hmina n hwk
      have hrel := inv.relaxed a hva b hb hvb
      rw [hga] at hrel
      simp only [Option.map_some'] at hrel
      rcases hgb : gOf cells b with _ | kb
      · rw [hgb] at hrel
        simp [ltG] at hrel
      · rw [hgb] at hrel
        simp only [ltG, decide_eq_false_iff_not, not_lt] at hrel
        have hkb : kb ≤ n + 1 := by omega
        have := pop_reach inv htop hmin hsurv hgb hvb
        have hcast : ((kb : ℕ) : ℝ) ≤ ((n : ℕ) : ℝ) + 1 := by
          exact_mod_cast hkb
        push_cast
        push_cast at this
        linarith
    · rw [Bool.not_eq_true] at hva
      have h1 := ih hva
      have h2 := hsq_step w hdiv e hb
      push_cast
      push_cast at h1
      linarith

/-- The popped fresh entry carries the walk-minimal g-score of its
cell. -/
theorem key_pop_min {w : Window} {s e : Nat} {cells : List Node}
    {heap : List Entry} (hdiv : Window.cell_width ∣ w.width)
    (inv : AStarInv w s e cells heap)
    {top : Entry} {rest : List Entry} (htop : top ∈ heap)
    (hmin : ∀ x ∈ rest, entryRel top x)
    (hsurv : ∀ x ∈ heap, freshE cells x → x ≠ top → x ∈ rest)
    (hfresh : freshE cells top) :
    gOf cells top.2 = some top.1.g ∧
      ∀ m, Wk w s top.2 m → top.1.g ≤ m := by
  have hv := top_fresh_unvisited inv htop hfresh
  obtain ⟨k, hg, hle, hd, hlt⟩ := inv.heapEnt top htop
  obtain ⟨nd, hget, hfs⟩ := hfresh
  have hf := inv.fg top.2 k hg
  unfold fOf at hf
  rw [hget] at hf
  simp only [Option.bind_eq_bind, Option.some_bind] at hf
  rw [hf] at hfs
  simp only [fsEq] at hfs
  have hgk : top.1.g = k := beqR_same_d hd hfs
  refine ⟨hgk ▸ hg, ?_⟩
  intro m hwk
  have hkey := key_pop hdiv inv htop hmin hsurv hwk hv
  rw [hd] at hkey
  have : (top.1.g : ℝ) ≤ (m : ℝ) := by linarith
  exact_mod_cast this

/-! ## List counting helpers for the termination measure -/

/-- The number of unvisited records depends only on the visited flags. -/
theorem unvis_congr : ∀ (c1 c2 : List Node), c1.length = c2.length →
    (∀ i, visB c1 i = visB c2 i) →
    (c1.filter (fun nd => !nd.visited)).length
      = (c2.filter (fun nd => !nd.visited)).length := by
  intro c1
  induction c1 with
  | nil =>
    intro c2 hlen _
    rcases c2 with _ | ⟨b, t⟩
    · rfl
    · simp at hlen
  | cons a t ih =>
    intro c2 hlen hvis
    rcases c2 with _ | ⟨b, t2⟩
    · simp at hlen
    · have hhead : a.visited = b.visited := by
        have := hvis 0
        simpa [visB] using this
      have htail := ih t2 (by simpa using hlen)
        (fun i => by simpa [visB] using hvis (i + 1))
      simp only [List.filter_cons]
      rw [hhead]
      by_cases hb : b.visited
      · simp [hb, htail]
      · simp [hb, htail]

/-- Marking an unvisited record visited decreases the unvisited count
by exactly one. -/
theorem unvis_set_visited : ∀ (cells : List Node) (u : Nat) (nd nd' : Node),
    cells.get? u = some nd → nd.visited = false → nd'.visited = true →
    (cells.filter (fun x => !x.visited)).length
      = ((cells.set u nd').filter (fun x => !x.visited)).length + 1 := by
  intro cells
  induction cells with
  | nil =>
    intro u nd nd' hget
    simp at hget
  | cons a t ih =>
    intro u nd nd' hget hnd hnd'
    rcases u with _ | u
    · simp only [List.get?] at hget
      cases hget
      simp [List.filter_cons, hnd, hnd']
    · simp only [List.get?] at hget
      have := ih u nd nd' hget hnd hnd'
      simp only [List.set]
      by_cases ha : a.visited
      · simp [List.filter_cons, ha, this]
      · simp [List.filter_cons, ha, this]

/-- `get_neighbours` lists at most four cells. -/
theorem get_neighbours_length_le (w : Window) (i : Nat) :
    (w.get_neighbours i).length ≤ 4 := by
  unfold Window.get_neighbours
  simp only [List.length_map]
  have := List.length_filter_le
    (fun coords => !w.out_of_bounds coords &&
      !w.obstacle_existsZ (w.cell_to_cell_id coords))
    [((w.cell_id_to_cell i).1, (w.cell_id_to_cell i).2 - 1),
     ((w.cell_id_to_cell i).1 + 1, (w.cell_id_to_cell i).2),
     ((w.cell_id_to_cell i).1, (w.cell_id_to_cell i).2 + 1),
     ((w.cell_id_to_cell i).1 - 1, (w.cell_id_to_cell i).2)]
  simpa using this

/-- Reading back an in-range update. -/
theorem get?_set_self (l : List Node) (i : Nat) (a : Node)
    (h : i < l.length) : (l.set i a).get? i = some a := by
  rw [List.get?_set_eq, List.get?_eq_get h]
  rfl

/-- Setting an index to the value it already holds leaves the list
unchanged. -/
theorem list_set_same : ∀ (l : List Node) (i : Nat) (a : Node),
    l.get? i = some a → l.set i a = l := by
  intro l
  induction l with
  | nil => intro i a h; simp at h
  | cons x t ih =>
    intro i a h
    rcases i with _ | i
    · simp only [List.get?] at h
      cases h
      rfl
    · simp only [List.get?] at h
      simp [List.set, ih i a h]

/-! ## The expansion loop -/

/-- The expanded cell keeps its g-score through the loop. -/
theorem expandInv_gu {w : Window} {e u gu : Nat} {cells1 : List Node}
    {rest : List Entry} {cells2 : List Node} {heap2 : List Entry}
    (einv : ExpandInv w e u gu cells1 rest cells2 heap2)
    (hgu1 : gOf cells1 u = some gu) : gOf cells2 u = some gu := by
  rcases einv.dich u with h | ⟨nd1, hg1, _, hlt, _, _, _⟩
  · unfold gOf
    rw [h]
    exact hgu1
  · unfold gOf at hgu1
    rw [hg1] at hgu1
    simp only [Option.bind_eq_bind, Option.some_bind] at hgu1
    rw [hgu1] at hlt
    simp [ltG] at hlt

/-- Relaxation through the neighbour list: the loop returns normally,
preserves the expansion invariant, pushes at most one entry per
neighbour, only ever lowers a g-score (to `gu + 1`), and afterwards no
listed unvisited neighbour would accept `gu + 1`. -/
theorem expandList_spec (w : Window) (hdiv : Window.cell_width ∣ w.width)
    (e u gu : Nat) (cells1 : List Node) (rest : List Entry)
    (hlen1 : cells1.length = w.get_num_cells)
    (hgu1 : gOf cells1 u = some gu) :
    ∀ (L : List Nat) (st : List Node × List Entry),
      (∀ nb ∈ L, nb ∈ w.get_neighbours u) →
      ExpandInv w e u gu cells1 rest st.1 st.2 →
      ∃ st2, expandList w e u L st = some st2 ∧
        ExpandInv w e u gu cells1 rest st2.1 st2.2 ∧
        st2.2.length ≤ st.2.length + L.length ∧
        (∀ i, gOf st2.1 i = gOf st.1 i ∨ gOf st2.1 i = some (gu + 1)) ∧
        (∀ nb ∈ L, visB st2.1 nb = true ∨
          ltG (some (gu + 1)) (gOf st2.1 nb) = false) := by
  intro L
  induction L with
  | nil =>
    intro st hL einv
    exact ⟨st, rfl, einv, by simp, fun i => Or.inl rfl, by simp⟩
  | cons nb L' ih =>
    intro st hL einv
    have hnbN : nb ∈ w.get_neighbours u := hL nb (List.mem_cons_self _ _)
    obtain ⟨hnb_lt, hnb_obs, -⟩ := mem_get_neighbours_elim w hdiv hnbN
    have hnb_len : nb < st.1.length := by rw [einv.len, hlen1]; exact hnb_lt
    obtain ⟨nbNode, hget_nb⟩ : ∃ x, st.1.get? nb = some x :=
      ⟨_, List.get?_eq_get hnb_len⟩
    have hgu_st : gOf st.1 u = some gu := expandInv_gu einv hgu1
    obtain ⟨curNode, hget_u, hcur_g⟩ :
        ∃ x, st.1.get? u = some x ∧ x.g_score = some gu := by
      unfold gOf at hgu_st
      rcases h : st.1.get? u with _ | x
      · rw [h] at hgu_st; simp at hgu_st
      · rw [h] at hgu_st
        simp only [Option.bind_eq_bind, Option.some_bind] at hgu_st
        exact ⟨x, rfl, hgu_st⟩
    have hL' : ∀ x ∈ L', x ∈ w.get_neighbours u :=
      fun x hx => hL x (List.mem_cons_of_mem _ hx)
    rw [expandList]
    by_cases hvis_nb : nbNode.visited
    · have hrel_eq : relaxStep w e u st nb = some st := by
        unfold relaxStep
        rw [hget_nb]
        simp [hvis_nb]
      rw [hrel_eq]
      obtain ⟨st2, heq2, einv2, hlen2, hmono2, hfor2⟩ := ih st hL' einv
      refine ⟨st2, heq2, einv2, by simpa using Nat.le_succ_of_le hlen2, hmono2, ?_⟩
      intro x hx
      rcases List.mem_cons.mp hx with rfl | hx
      · left
        have h1 : visB st2.1 x = visB cells1 x := einv2.vis x
        have h2 : visB st.1 x = visB cells1 x := einv.vis x
        have h3 : visB st.1 x = true := by
          unfold visB
          rw [hget_nb]
          exact hvis_nb
        rw [h1, ← h2, h3]
      · exact hfor2 x hx
    · by_cases hrel : ltG (some (gu + 1)) nbNode.g_score = true
      · -- the relaxation fires
        have hrec : ({ nbNode with came_from := some u, g_score := some (gu + 1), f_score := some (FS.mk (gu + 1) (w.hsq nb e)) } : Node)
            = Node.mk (some u) (some (gu + 1))
                (some (FS.mk (gu + 1) (w.hsq nb e))) false := by
          have : nbNode.visited = false := by
            rw [Bool.eq_false_iff]; exact hvis_nb
          cases nbNode
          simp_all
        have hrel_eq : relaxStep w e u st nb
            = some (st.1.set nb (Node.mk (some u) (some (gu + 1))
                (some (FS.mk (gu + 1) (w.hsq nb e))) false),
              st.2 ++ [(FS.mk (gu + 1) (w.hsq nb e), nb)]) := by
          simp only [relaxStep, hget_nb, hvis_nb, Bool.false_eq_true, if_false,
            hget_u, hcur_g, Option.map_some', if_pos hrel, hrec]
        rw [hrel_eq]
        have hnb_g_fin : ∃ kb, nbNode.g_score = some kb ∧ gu + 1 < kb ∨
            nbNode.g_score = none := by
          rcases h : nbNode.g_score with _ | kb
          · exact ⟨0, Or.inr rfl⟩
          · rw [h] at hrel
            simp only [ltG, decide_eq_true_eq] at hrel
            exact ⟨kb, Or.inl ⟨rfl, hrel⟩⟩
        set f : FS := FS.mk (gu + 1) (w.hsq nb e) with hf
        set newRec : Node := Node.mk (some u) (some (gu + 1)) (some f) false
          with hnewRec
        set st' : List Node × List Entry :=
          (st.1.set nb newRec, st.2 ++ [(f, nb)]) with hst'
        have hget_nb1 : cells1.get? nb = some nbNode ∧ nbNode.visited = false := by
          rcases einv.dich nb with h | ⟨nd1, hg1, hv1, hlt1, _, hset1, _⟩
          · constructor
            · rw [← h]; exact hget_nb
            · rw [Bool.eq_false_iff]; exact hvis_nb
          · rw [hset1] at hget_nb
            cases hget_nb
            simp only [ltG] at hrel
            simp at hrel
        have einv' : ExpandInv w e u gu cells1 rest st'.1 st'.2 := by
          constructor
          · simp only [hst', List.length_set]
            exact einv.len
          · intro i
            by_cases hi : i = nb
            · subst hi
              have hget' : st'.1.get? i = some newRec := by
                simp only [hst']
                rw [get?_set_self _ _ _ hnb_len]
              have h1 : visB st'.1 i = false := by
                simp only [visB, hget']
              have h2 : visB cells1 i = false := by
                simp only [visB, hget_nb1.1]
                exact hget_nb1.2
              rw [h1, h2]
            · have h2 : st'.1.get? i = st.1.get? i := by
                simp only [hst']
                exact List.get?_set_ne _ _ (fun h => hi h.symm)
              have h3 : visB st'.1 i = visB st.1 i := by
                unfold visB
                rw [h2]
              rw [h3]
              exact einv.vis i
          · intro i
            by_cases hi : i = nb
            · subst hi
              right
              refine ⟨nbNode, hget_nb1.1, hget_nb1.2, ?_, hnbN, ?_, ?_⟩
              · exact hrel
              · simp only [hst']
                rw [get?_set_self _ _ _ hnb_len]
              · simp only [hst']
                exact List.mem_append_right _ (List.mem_singleton_self _)
            · rcases einv.dich i with h | ⟨nd1, hg1, hv1, hlt1, hmem1, hset1, hentry1⟩
              · left
                simp only [hst']
                rw [List.get?_set_ne _ _ (fun h => hi h.symm)]
                exact h
              · right
                refine ⟨nd1, hg1, hv1, hlt1, hmem1, ?_, ?_⟩
                · simp only [hst']
                  rw [List.get?_set_ne _ _ (fun h => hi h.symm)]
                  exact hset1
                · simp only [hst']
                  exact List.mem_append_left _ hentry1
          · intro en hen
            simp only [hst', List.mem_append, List.mem_singleton] at hen
            rcases hen with hen | rfl
            · obtain ⟨k, hk, hkle, hkd, hklt⟩ := einv.heapE en hen
              by_cases hi : en.2 = nb
              · rw [hi] at hk hkd hklt ⊢
                unfold gOf at hk
                rw [hget_nb] at hk
                simp only [Option.bind_eq_bind, Option.some_bind] at hk
                refine ⟨gu + 1, ?_, ?_, hkd, hklt⟩
                · unfold gOf
                  simp only [hst']
                  rw [get?_set_self _ _ _ hnb_len]
                  rfl
                · rcases hnb_g_fin with ⟨kb, ⟨hkb, hkb2⟩ | hkb⟩
                  · rw [hkb] at hk
                    cases hk
                    omega
                  · rw [hkb] at hk
                    cases hk
              · refine ⟨k, ?_, hkle, hkd, hklt⟩
                unfold gOf
                simp only [hst']
                rw [List.get?_set_ne _ _ (fun h => hi h.symm)]
                exact hk
            · refine ⟨gu + 1, ?_, le_refl _, rfl, by rw [einv.len, hlen1] at hnb_len; exact hnb_len⟩
              unfold gOf
              simp only [hst']
              rw [get?_set_self _ _ _ hnb_len]
              rfl
          · simp only [hst']
            rw [List.pairwise_append]
            refine ⟨einv.pw, List.pairwise_singleton _ _, ?_⟩
            intro a ha b hb
            simp only [List.mem_singleton] at hb
            subst hb
            intro hab
            obtain ⟨k, hk, hkle, _, _⟩ := einv.heapE a ha
            rw [hab] at hk
            unfold gOf at hk
            rw [hget_nb] at hk
            simp only [Option.bind_eq_bind, Option.some_bind] at hk
            rcases hnb_g_fin with ⟨kb, ⟨hkb, hkb2⟩ | hkb⟩
            · rw [hkb] at hk
              cases hk
              simp only [hf]
              omega
            · rw [hkb] at hk
              cases hk
          · intro x hx
            simp only [hst']
            exact List.mem_append_left _ (einv.hsub x hx)
          · intro x hx
            simp only [hst', List.mem_append, List.mem_singleton] at hx
            rcases hx with hx | rfl
            · rcases einv.hcover x hx with h | ⟨h1, h2⟩
              · exact Or.inl h
              · exact Or.inr ⟨h1, h2⟩
            · right
              refine ⟨?_, rfl⟩
              unfold visB
              rw [hget_nb1.1]
              exact hget_nb1.2
        obtain ⟨st2, heq2, einv2, hlen2, hmono2, hfor2⟩ := ih st' hL' einv'
        refine ⟨st2, heq2, einv2, ?_, ?_, ?_⟩
        · simp only [hst', List.length_append, List.length_singleton] at hlen2
          simp only [List.length_cons]
          omega
        · intro i
          rcases hmono2 i with h | h
          · by_cases hi : i = nb
            · subst hi
              right
              rw [h]
              unfold gOf
              simp only [hst']
              rw [get?_set_self _ _ _ hnb_len]
              rfl
            · left
              rw [h]
              unfold gOf
              simp only [hst']
              rw [List.get?_set_ne _ _ (fun h2 => hi h2.symm)]
          · exact Or.inr h
        · intro x hx
          rcases List.mem_cons.mp hx with rfl | hx
          · right
            rcases hmono2 x with h | h
            · rw [h]
              unfold gOf
              simp only [hst']
              rw [get?_set_self _ _ _ hnb_len]
              simp [ltG, hnewRec]
            · rw [h]
              simp [ltG]
          · exact hfor2 x hx
      · -- no relaxation
        have hrel_eq : relaxStep w e u st nb = some st := by
          simp only [relaxStep, hget_nb, hvis_nb, Bool.false_eq_true, if_false,
            hget_u, hcur_g, Option.map_some', if_neg hrel]
        rw [hrel_eq]
        obtain ⟨st2, heq2, einv2, hlen2, hmono2, hfor2⟩ := ih st hL' einv
        refine ⟨st2, heq2, einv2, by simpa using Nat.le_succ_of_le hlen2, hmono2, ?_⟩
        intro x hx
        rcases List.mem_cons.mp hx with rfl | hx
        · right
          rcases hmono2 x with h | h
          · rw [h]
            have : gOf st.1 x = nbNode.g_score := by
              unfold gOf
              rw [hget_nb]
              rfl
            rw [this]
            rw [Bool.eq_false_iff]
            exact hrel
          · rw [h]
            simp [ltG]
        · exact hfor2 x hx

/-! ## Path reconstruction -/

/-- Following `came_from` from a discovered cell reaches the start:
there is a predecessor list `pl` ending in `s` such that the loop of
`construct_path` appends exactly `pl` (given enough fuel), the walk it
describes has at most `k` edges, consecutive elements are neighbour
related, every element is discovered, and g-scores strictly decrease
along it. -/
theorem cpGo_spec (w : Window) (s : Nat) (cells : List Node)
    (hpred : ∀ i k, gOf cells i = some k → i ≠ s →
      ∃ p kp, cfOf cells i = some p ∧ i ∈ w.get_neighbours p ∧
        gOf cells p = some kp ∧ kp + 1 ≤ k) :
    ∀ k i, gOf cells i = some k → i ≠ s →
      ∃ pl : List Nat,
        (∀ fuel acc, pl.length < fuel →
          cpGo cells s fuel i acc = some (acc ++ pl).reverse) ∧
        pl ≠ [] ∧ pl.getLast? = some s ∧
        Wk w s i pl.length ∧
        pl.length ≤ k ∧
        List.Chain' (fun x y => x ∈ w.get_neighbours y) (i :: pl) ∧
        (∀ x ∈ i :: pl, ∃ kx, gOf cells x = some kx) ∧
        (∀ x ∈ i :: pl, x = s ∨ ∃ y, x ∈ w.get_neighbours y) ∧
        List.Chain' (fun x y =>
          (gOf cells y).getD 0 < (gOf cells x).getD 0) (i :: pl) := by
  intro k
  induction k using Nat.strong_induction_on with
  | _ k ih =>
    intro i hk his
    obtain ⟨p, kp, hcf, hmem, hgp, hkp⟩ := hpred i k hk his
    obtain ⟨nd, hget, hndcf⟩ :
        ∃ nd, cells.get? i = some nd ∧ nd.came_from = some p := by
      unfold cfOf at hcf
      rcases h : cells.get? i with _ | nd
      · rw [h] at hcf; simp at hcf
      · rw [h] at hcf
        simp only [Option.bind_eq_bind, Option.some_bind] at hcf
        exact ⟨nd, rfl, hcf⟩
    by_cases hps : p = s
    · subst hps
      refine ⟨[p], ?_, by simp, by simp, ?_, by simp; omega, ?_, ?_, ?_, ?_⟩
      · intro fuel acc hfuel
        rcases fuel with _ | fuel
        · omega
        · have hstep : cpGo cells p (fuel + 1) i acc
              = cpGo cells p fuel p (acc ++ [p]) := by
            simp only [cpGo, if_neg his, hget, hndcf]
          rw [hstep]
          rcases fuel with _ | fuel
          · simp at hfuel
          · rw [cpGo, if_pos rfl]
      · exact Wk.cons Wk.nil hmem
      · exact List.chain'_pair.mpr hmem
      · intro x hx
        rcases List.mem_cons.mp hx with rfl | hx
        · exact ⟨k, hk⟩
        · rw [List.mem_singleton] at hx
          subst hx
          exact ⟨kp, hgp⟩
      · intro x hx
        rcases List.mem_cons.mp hx with rfl | hx
        · exact Or.inr ⟨p, hmem⟩
        · rw [List.mem_singleton] at hx
          subst hx
          exact Or.inl rfl
      · refine List.chain'_pair.mpr ?_
        rw [hk, hgp]
        simp only [Option.getD_some]
        omega
    · obtain ⟨pl, hplgo, hplne, hpllast, hplwk, hpllen, hplchain, hplfin,
        hplnb, hpldec⟩ := ih kp (by omega) p hgp hps
      refine ⟨p :: pl, ?_, by simp, ?_, ?_, ?_, ?_, ?_, ?_, ?_⟩
      · intro fuel acc hfuel
        rcases fuel with _ | fuel
        · simp at hfuel
        · have hstep : cpGo cells s (fuel + 1) i acc
              = cpGo cells s fuel p (acc ++ [p]) := by
            simp only [cpGo, if_neg his, hget, hndcf]
          rw [hstep]
          have := hplgo fuel (acc ++ [p]) (by simp at hfuel ⊢; omega)
          rw [this]
          congr 1
          rw [List.append_assoc]
          rfl
      · rw [List.getLast?_cons]
        rw [hpllast]
        rfl
      · exact Wk.cons hplwk hmem
      · simp only [List.length_cons]
        omega
      · refine hplchain.cons' ?_
        intro y hy
        simp only [List.head?_cons, Option.mem_def, Option.some.injEq] at hy
        subst hy
        exact hmem
      · intro x hx
        rcases List.mem_cons.mp hx with rfl | hx
        · exact ⟨k, hk⟩
        · exact hplfin x hx
      · intro x hx
        rcases List.mem_cons.mp hx with rfl | hx
        · exact Or.inr ⟨p, hmem⟩
        · exact hplnb x hx
      · refine hpldec.cons' ?_
        intro y hy
        simp only [List.head?_cons, Option.mem_def, Option.some.injEq] at hy
        subst hy
        rw [hk, hgp]
        simp only [Option.getD_some]
        omega

/-- `construct_path` (as called by the engine, with start different
from end) returns a path from `s` to `e`: it starts at `s`, ends at
`e`, follows neighbour steps, avoids obstacles except possibly at `s`,
and its edge count is a walk length of at most the g-score of `e`. -/
theorem construct_path_spec (w : Window) (s e : Nat) (cells : List Node)
    (hpred : ∀ i k, gOf cells i = some k → i ≠ s →
      ∃ p kp, cfOf cells i = some p ∧ i ∈ w.get_neighbours p ∧
        gOf cells p = some kp ∧ kp + 1 ≤ k)
    (hse : s ≠ e) {k : Nat} (hk : gOf cells e = some k) :
    ∃ p t, construct_path s e cells = some p ∧
      p.head? = some s ∧ p.getLast? = some e ∧
      List.Chain' (fun a b => b ∈ w.get_neighbours a) p ∧
      (∀ x ∈ p, x = s ∨ w.obstacle_exists x = false) ∧
      Wk w s e t ∧ t ≤ k ∧ p.length = t + 1 := by
  obtain ⟨pl, hgo, hplne, hlast, hwk, hlen, hchain, hfin, hnb, hdec⟩ :=
    cpGo_spec w s cells hpred k e hk (Ne.symm hse)
  have hrange : ∀ x ∈ e :: pl, x < cells.length := by
    intro x hx
    obtain ⟨kx, hkx⟩ := hfin x hx
    unfold gOf at hkx
    rcases h : cells.get? x with _ | nd
    · rw [h] at hkx; simp at hkx
    · by_contra hge
      rw [not_lt] at hge
      rw [List.get?_eq_none.mpr hge] at h
      cases h
  haveI : IsTrans ℕ (fun x y => (gOf cells y).getD 0 < (gOf cells x).getD 0) :=
    ⟨fun a b c h1 h2 => lt_trans h2 h1⟩
  have hpw := List.chain'_iff_pairwise.mp hdec
  have hnodup : (e :: pl).Nodup := by
    refine hpw.imp ?_
    intro a b h
    rintro rfl
    exact absurd h (lt_irrefl _)
  have hcard : (e :: pl).length ≤ cells.length := by
    have h1 : (e :: pl).toFinset.card = (e :: pl).length :=
      List.toFinset_card_of_nodup hnodup
    have h2 : (e :: pl).toFinset ⊆ Finset.range cells.length := by
      intro x hx
      rw [List.mem_toFinset] at hx
      rw [Finset.mem_range]
      exact hrange x hx
    have h3 := Finset.card_le_card h2
    rw [Finset.card_range, h1] at h3
    exact h3
  have hfuel : pl.length < cells.length + 1 := by
    simp only [List.length_cons] at hcard
    omega
  have hpath : construct_path s e cells = some ((e :: pl).reverse) := by
    unfold construct_path
    rw [if_neg hse]
    have := hgo (cells.length + 1) [e] hfuel
    rw [this]
    rfl
  refine ⟨(e :: pl).reverse, pl.length, hpath, ?_, ?_, ?_, ?_, hwk, hlen, by simp⟩
  · rw [List.head?_reverse, List.getLast?_cons, hlast]
    rfl
  · rw [List.getLast?_reverse]
    rfl
  · exact List.chain'_reverse.mpr hchain
  · intro x hx
    rw [List.mem_reverse] at hx
    rcases hnb x hx with h | ⟨y, hy⟩
    · exact Or.inl h
    · exact Or.inr (mem_get_neighbours_obstacle w hy)

/-! ## Transport along the visited marking -/

theorem get_lt_of_get? {cells : List Node} {u : Nat} {nd : Node}
    (hget : cells.get? u = some nd) : u < cells.length := by
  by_contra h
  rw [not_lt] at h
  rw [List.get?_eq_none.mpr h] at hget
  cases hget

theorem gOf_set_visited {cells : List Node} {u : Nat} {nd : Node}
    (hget : cells.get? u = some nd) (i : Nat) :
    gOf (cells.set u { nd with visited := true }) i = gOf cells i := by
  by_cases hi : i = u
  · subst hi
    unfold gOf
    rw [get?_set_self _ _ _ (get_lt_of_get? hget), hget]
    rfl
  · unfold gOf
    rw [List.get?_set_ne _ _ (fun h => hi h.symm)]

theorem fOf_set_visited {cells : List Node} {u : Nat} {nd : Node}
    (hget : cells.get? u = some nd) (i : Nat) :
    fOf (cells.set u { nd with visited := true }) i = fOf cells i := by
  by_cases hi : i = u
  · subst hi
    unfold fOf
    rw [get?_set_self _ _ _ (get_lt_of_get? hget), hget]
    rfl
  · unfold fOf
    rw [List.get?_set_ne _ _ (fun h => hi h.symm)]

theorem cfOf_set_visited {cells : List Node} {u : Nat} {nd : Node}
    (hget : cells.get? u = some nd) (i : Nat) :
    cfOf (cells.set u { nd with visited := true }) i = cfOf cells i := by
  by_cases hi : i = u
  · subst hi
    unfold cfOf
    rw [get?_set_self _ _ _ (get_lt_of_get? hget), hget]
    rfl
  · unfold cfOf
    rw [List.get?_set_ne _ _ (fun h => hi h.symm)]

theorem visB_set_visited_self {cells : List Node} {u : Nat} {nd : Node}
    (hget : cells.get? u = some nd) :
    visB (cells.set u { nd with visited := true }) u = true := by
  unfold visB
  rw [get?_set_self _ _ _ (get_lt_of_get? hget)]

theorem visB_set_visited_other {cells : List Node} {u : Nat} {nd : Node}
    (hget : cells.get? u = some nd) {i : Nat} (hi : i ≠ u) :
    visB (cells.set u { nd with visited := true }) i = visB cells i := by
  unfold visB
  rw [List.get?_set_ne _ _ (fun h => hi h.symm)]

/-- Expanding an already visited cell changes nothing: the invariant
says all its edges are already relaxed. -/
theorem expand_noop (w : Window) (e u : Nat) (cells : List Node)
    (rest : List Entry) {ndu : Node} (hget_u : cells.get? u = some ndu) :
    ∀ L : List Nat,
      (∀ nb ∈ L, nb < cells.length) →
      (∀ nb ∈ L, visB cells nb = false →
        ltG (ndu.g_score.map (· + 1)) (gOf cells nb) = false) →
      expandList w e u L (cells, rest) = some (cells, rest) := by
  intro L
  induction L with
  | nil => intro _ _; rfl
  | cons nb L' ih =>
    intro hlt hrel
    have hnb_lt : nb < cells.length := hlt nb (List.mem_cons_self _ _)
    obtain ⟨nbNode, hget_nb⟩ : ∃ x, cells.get? nb = some x :=
      ⟨_, List.get?_eq_get hnb_lt⟩
    rw [expandList]
    by_cases hvis : nbNode.visited
    · have hstep : relaxStep w e u (cells, rest) nb = some (cells, rest) := by
        simp only [relaxStep, hget_nb, hvis, if_true]
      rw [hstep]
      exact ih (fun x hx => hlt x (List.mem_cons_of_mem _ hx))
        (fun x hx => hrel x (List.mem_cons_of_mem _ hx))
    · have hvb : visB cells nb = false := by
        unfold visB
        rw [hget_nb]
        rw [Bool.eq_false_iff]
        exact hvis
      have hrelnb := hrel nb (List.mem_cons_self _ _) hvb
      have hgnb : gOf cells nb = nbNode.g_score := by
        unfold gOf
        rw [hget_nb]
        rfl
      rw [hgnb] at hrelnb
      have hstep : relaxStep w e u (cells, rest) nb = some (cells, rest) := by
        rcases hndg : ndu.g_score with _ | gv
        · simp only [relaxStep, hget_nb, hvis, Bool.false_eq_true, if_false,
            hget_u, hndg, Option.map_none']
          have : ltG none nbNode.g_score = false := by simp [ltG]
          rw [this]
          simp
        · rw [hndg] at hrelnb
          simp only [Option.map_some'] at hrelnb
          simp only [relaxStep, hget_nb, hvis, Bool.false_eq_true, if_false,
            hget_u, hndg, Option.map_some', hrelnb, Bool.false_eq_true, if_false]
      rw [hstep]
      exact ih (fun x hx => hlt x (List.mem_cons_of_mem _ hx))
        (fun x hx => hrel x (List.mem_cons_of_mem _ hx))

/-! ## One iteration of the outer loop -/

/-- Discovered cells have fresh f-score entries (as values, via the
stored record). -/
theorem freshE_of_g {w : Window} {s e : Nat} {cells : List Node}
    {heap : List Entry} (inv : AStarInv w s e cells heap) {i k : Nat}
    (hk : gOf cells i = some k) : freshE cells (FS.mk k (w.hsq i e), i) := by
  unfold gOf at hk
  rcases hget : cells.get? i with _ | nd
  · rw [hget] at hk; simp at hk
  · refine ⟨nd, hget, ?_⟩
    have hf := inv.fg i k (by unfold gOf; rw [hget]; exact hget ▸ hk)
    unfold fOf at hf
    rw [hget] at hf
    simp only [Option.bind_eq_bind, Option.some_bind] at hf
    rw [hf]
    simp only [fsEq]
    exact beqR_refl _

/-- The heap never holds two equal entries. -/
theorem heap_nodup {w : Window} {s e : Nat} {cells : List Node}
    {heap : List Entry} (inv : AStarInv w s e cells heap) : heap.Nodup := by
  refine inv.distinctG.imp ?_
  intro a b h
  rintro rfl
  exact (h rfl) rfl

/-- One iteration of the outer loop from an invariant state with a
non-empty frontier: either the end cell is popped and the
reconstructed path is returned, with the g-score of the end cell
minimal over all walks, or the loop continues in an invariant state of
strictly smaller measure.  No iteration errors. -/
theorem aStarStep_spec (w : Window) (s e : Nat)
    (hdiv : Window.cell_width ∣ w.width)
    {cells : List Node} {heap : List Entry}
    (inv : AStarInv w s e cells heap) (hne : heap ≠ []) :
    (∃ p rest k, aStarStep w s e cells heap = .ret p rest ∧
       gOf cells e = some k ∧ (∀ m, Wk w s e m → k ≤ m) ∧
       construct_path s e cells = some p) ∨
    (∃ cells2 heap2, aStarStep w s e cells heap = .cont cells2 heap2 ∧
       AStarInv w s e cells2 heap2 ∧
       searchMeasure cells2 heap2 < searchMeasure cells heap) := by
  have hids : ∀ en ∈ heap, en.2 < cells.length := by
    intro en hen
    obtain ⟨_, _, _, _, hlt⟩ := inv.heapEnt en hen
    rw [inv.len]
    exact hlt
  obtain ⟨top, rest, hpop, htop, hsubE, hmin, hsurv, hlast⟩ :=
    popUntilFresh_spec cells heap.length heap hne (le_refl _) hids
  have hrest_mem : ∀ x ∈ rest, x ∈ heap := by
    intro x hx
    exact List.mem_of_mem_erase (hsubE.mem hx)
  have hrest_len : rest.length < heap.length := by
    have h1 := hsubE.length_le
    rw [List.length_erase_of_mem htop] at h1
    have h2 : 0 < heap.length := List.length_pos.mpr hne
    omega
  by_cases hue : top.2 = e
  · -- the end cell is popped: return
    have hfresh : freshE cells top := by
      rcases hlast with hrest | hfresh
      · by_contra hstale
        have hv := top_stale_visited inv htop
          (by rw [← hrest]; exact hsurv) hstale
        rw [hue] at hv
        rw [inv.visE] at hv
        cases hv
      · exact hfresh
    obtain ⟨hge, hmin_g⟩ := key_pop_min hdiv inv htop hmin hsurv hfresh
    obtain ⟨p, hcp⟩ : ∃ p, construct_path s e cells = some p := by
      by_cases hse : s = e
      · exact ⟨[], by unfold construct_path; rw [if_pos hse]⟩
      · obtain ⟨p, t, hcp, -, -, -, -, -, -, -⟩ :=
          construct_path_spec w s e cells inv.pred hse (hue ▸ hge)
        exact ⟨p, hcp⟩
    left
    refine ⟨p, rest, top.1.g, ?_, hue ▸ hge, ?_, hcp⟩
    · simp only [aStarStep, hpop, hue, if_true, hcp]
    · intro m hm
      exact hmin_g m (by rw [hue]; exact hm)
  · -- expansion
    right
    obtain ⟨k0, hg0, hle0, hd0, hlt0⟩ := inv.heapEnt top htop
    obtain ⟨nd, hget_u, hnd_g⟩ :
        ∃ nd, cells.get? top.2 = some nd ∧ nd.g_score = some k0 := by
      unfold gOf at hg0
      rcases h : cells.get? top.2 with _ | nd
      · rw [h] at hg0; simp at hg0
      · rw [h] at hg0
        simp only [Option.bind_eq_bind, Option.some_bind] at hg0
        exact ⟨nd, rfl, hg0⟩
    by_cases hfresh : freshE cells top
    · -- fresh entry: real expansion of an unvisited cell
      obtain ⟨hge, hmin_g⟩ := key_pop_min hdiv inv htop hmin hsurv hfresh
      have hunvis := top_fresh_unvisited inv htop hfresh
      have hnd_vis : nd.visited = false := by
        unfold visB at hunvis
        rw [hget_u] at hunvis
        exact hunvis
      set u := top.2 with hu
      set gu := top.1.g with hgu
      have hgu_eq : gOf cells u = some gu := hge
      set cells1 := cells.set u { nd with visited := true } with hcells1
      have hlen1 : cells1.length = w.get_num_cells := by
        rw [hcells1, List.length_set]
        exact inv.len
      have hgtrans : ∀ i, gOf cells1 i = gOf cells i :=
        gOf_set_visited hget_u
      have hftrans : ∀ i, fOf cells1 i = fOf cells i :=
        fOf_set_visited hget_u
      have hctrans : ∀ i, cfOf cells1 i = cfOf cells i :=
        cfOf_set_visited hget_u
      have hvu : visB cells1 u = true := visB_set_visited_self hget_u
      have hvother : ∀ i, i ≠ u → visB cells1 i = visB cells i :=
        fun i hi => visB_set_visited_other hget_u hi
      have hgu1 : gOf cells1 u = some gu := by rw [hgtrans]; exact hgu_eq
      have einv0 : ExpandInv w e u gu cells1 rest cells1 rest := by
        constructor
        · rfl
        · intro i; rfl
        · intro i; exact Or.inl rfl
        · intro en hen
          obtain ⟨k, hk, hkle, hkd, hklt⟩ := inv.heapEnt en (hrest_mem en hen)
          exact ⟨k, by rw [hgtrans]; exact hk, hkle, hkd, hklt⟩
        · exact List.Pairwise.sublist (hsubE.trans (List.erase_sublist _ _)) inv.distinctG
        · intro x hx; exact hx
        · intro x hx; exact Or.inl hx
      obtain ⟨st2, hexp, einv2, hlen2, hmono2, hfor2⟩ :=
        expandList_spec w hdiv e u gu cells1 rest hlen1 hgu1
          (w.get_neighbours u) (cells1, rest) (fun nb h => h) einv0
      refine ⟨st2.1, st2.2, ?_, ?_, ?_⟩
      · simp only [aStarStep, hpop, if_neg hue, hget_u, hexp]
      · -- the search invariant after the expansion
        -- dichotomy consequences, spelled out once
        have hdich := einv2.dich
        have hg2u : gOf st2.1 u = some gu := expandInv_gu einv2 hgu1
        have hgkeep : ∀ i, st2.1.get? i = cells1.get? i → gOf st2.1 i = gOf cells i := by
          intro i h
          rw [← hgtrans i]
          unfold gOf
          rw [h]
        have hfkeep : ∀ i, st2.1.get? i = cells1.get? i → fOf st2.1 i = fOf cells i := by
          intro i h
          rw [← hftrans i]
          unfold fOf
          rw [h]
        have hckeep : ∀ i, st2.1.get? i = cells1.get? i → cfOf st2.1 i = cfOf cells i := by
          intro i h
          rw [← hctrans i]
          unfold cfOf
          rw [h]
        constructor
        · rw [einv2.len]; exact hlen1
        · -- gs
          rcases hdich s with h | ⟨nd1, hg1, -, hlt1, -, -, -⟩
          · rw [hgkeep s h]
            exact inv.gs
          · exfalso
            have hgs1 : gOf cells1 s = some 0 := by rw [hgtrans]; exact inv.gs
            unfold gOf at hgs1
            rw [hg1] at hgs1
            simp only [Option.bind_eq_bind, Option.some_bind] at hgs1
            rw [hgs1] at hlt1
            simp [ltG] at hlt1
        · -- gWalk
          intro i k hk
          rcases hdich i with h | ⟨nd1, hg1, -, -, hmem1, hset1, -⟩
          · rw [hgkeep i h] at hk
            exact inv.gWalk i k hk
          · have hgi : gOf st2.1 i = some (gu + 1) := by
              unfold gOf; rw [hset1]; rfl
            rw [hgi] at hk
            cases hk
            exact Wk.cons (inv.gWalk u gu hgu_eq) hmem1
        · -- fg
          intro i k hk
          rcases hdich i with h | ⟨nd1, hg1, -, -, -, hset1, -⟩
          · rw [hgkeep i h] at hk
            rw [hfkeep i h]
            exact inv.fg i k hk
          · have hgi : gOf st2.1 i = some (gu + 1) := by
              unfold gOf; rw [hset1]; rfl
            rw [hgi] at hk
            cases hk
            unfold fOf
            rw [hset1]
            rfl
        · -- pred
          intro i k hk his
          rcases hdich i with h | ⟨nd1, hg1, -, -, hmem1, hset1, -⟩
          · have hki : gOf cells i = some k := by
              rw [← hgkeep i h]
              exact hk
            obtain ⟨p, kp, hcf, hmem, hgp, hkp⟩ := inv.pred i k hki his
            rcases hdich p with hp | ⟨nd1p, hg1p, -, hlt1p, -, hset1p, -⟩
            · refine ⟨p, kp, ?_, hmem, ?_, hkp⟩
              · rw [hckeep i h]
                exact hcf
              · rw [hgkeep p hp]
                exact hgp
            · have hgp1 : nd1p.g_score = some kp := by
                have hg1pk : gOf cells1 p = some kp := by rw [hgtrans]; exact hgp
                unfold gOf at hg1pk
                rw [hg1p] at hg1pk
                simpa using hg1pk
              rw [hgp1] at hlt1p
              simp only [ltG, decide_eq_true_eq] at hlt1p
              refine ⟨p, gu + 1, ?_, hmem, ?_, by omega⟩
              · rw [hckeep i h]
                exact hcf
              · unfold gOf
                rw [hset1p]
                rfl
          · have hgi : gOf st2.1 i = some (gu + 1) := by
              unfold gOf; rw [hset1]; rfl
            rw [hgi] at hk
            cases hk
            refine ⟨u, gu, ?_, hmem1, hg2u, le_refl _⟩
            unfold cfOf
            rw [hset1]
            rfl
        · -- heapEnt
          exact einv2.heapE
        · -- fresh
          intro i k hk hvis
          rcases hdich i with h | ⟨nd1, hg1, -, -, -, hset1, hentry1⟩
          · have hki : gOf cells i = some k := by
              rw [← hgkeep i h]
              exact hk
            have hvi1 : visB st2.1 i = visB cells1 i := einv2.vis i
            have hiu : i ≠ u := by
              intro hiu
              rw [hvi1, hiu, hvu] at hvis
              cases hvis
            have hvi : visB cells i = false := by
              rw [← hvother i hiu, ← hvi1]
              exact hvis
            have hf_mem := inv.fresh i k hki hvi
            have hf_fresh := freshE_of_g inv hki
            have hf_ne : (FS.mk k (w.hsq i e), i) ≠ top := by
              intro hcontra
              exact hiu (congrArg Prod.snd hcontra)
            exact einv2.hsub _ (hsurv _ hf_mem hf_fresh hf_ne)
          · have hgi : gOf st2.1 i = some (gu + 1) := by
              unfold gOf; rw [hset1]; rfl
            rw [hgi] at hk
            cases hk
            exact hentry1
        · -- visMin
          intro i hvis
          have hvi1 : visB cells1 i = true := by rw [← einv2.vis]; exact hvis
          by_cases hiu : i = u
          · subst hiu
            exact ⟨gu, hg2u, hmin_g⟩
          · have hvi : visB cells i = true := by rw [← hvother i hiu]; exact hvi1
            obtain ⟨k, hk, hmink⟩ := inv.visMin i hvi
            rcases hdich i with h | ⟨nd1, hg1, hv1, -, -, -, -⟩
            · refine ⟨k, ?_, hmink⟩
              rw [hgkeep i h]
              exact hk
            · exfalso
              have hvf : visB cells1 i = false := by
                simp only [visB, hg1, hv1]
              rw [hvf] at hvi1
              cases hvi1
        · -- relaxed
          intro c hvc nb hnb hvnb
          have hvc1 : visB cells1 c = true := by rw [← einv2.vis]; exact hvc
          have hvnb1 : visB cells1 nb = false := by rw [← einv2.vis]; exact hvnb
          have hnbu : nb ≠ u := by
            intro h
            rw [h, hvu] at hvnb1
            cases hvnb1
          have hvnb0 : visB cells nb = false := by
            rw [← hvother nb hnbu]; exact hvnb1
          by_cases hcu : c = u
          · subst hcu
            rw [hg2u]
            simp only [Option.map_some']
            rcases hfor2 nb hnb with h | h
            · rw [h] at hvnb
              cases hvnb
            · exact h
          · have hvc0 : visB cells c = true := by rw [← hvother c hcu]; exact hvc1
            have hold := inv.relaxed c hvc0 nb hnb hvnb0
            have hgc2 : gOf st2.1 c = gOf cells c := by
              rcases hdich c with h | ⟨nd1, hg1, hv1, -, -, -, -⟩
              · exact hgkeep c h
              · exfalso
                have hvf : visB cells1 c = false := by
                  simp only [visB, hg1, hv1]
                rw [hvf] at hvc1
                cases hvc1
            rw [hgc2]
            rcases hdich nb with h | ⟨nd1, hg1, -, hlt1, -, hset1, -⟩
            · rw [hgkeep nb h]
              exact hold
            · have hgnb2 : gOf st2.1 nb = some (gu + 1) := by
                unfold gOf; rw [hset1]; rfl
              rw [hgnb2]
              have hnd1g : nd1.g_score = gOf cells nb := by
                have hgg : gOf cells1 nb = gOf cells nb := hgtrans nb
                unfold gOf at hgg
                rw [hg1] at hgg
                exact hgg
              rw [hnd1g] at hlt1
              rcases hgnb0 : gOf cells nb with _ | kb
              · rw [hgnb0] at hold
                rcases hgc0 : gOf cells c with _ | kc
                · simp [ltG]
                · rw [hgc0] at hold
                  simp only [Option.map_some'] at hold
                  simp [ltG] at hold
              · rw [hgnb0] at hlt1 hold
                simp only [ltG, decide_eq_true_eq] at hlt1
                rcases hgc0 : gOf cells c with _ | kc
                · simp [ltG]
                · rw [hgc0] at hold
                  simp only [Option.map_some'] at hold ⊢
                  simp only [ltG, decide_eq_false_iff_not, not_lt] at hold ⊢
                  omega
        · -- visStale
          intro en hen hvis
          rcases einv2.hcover en hen with hren | ⟨hv1, -⟩
          · have hen_heap : en ∈ heap := hrest_mem en hren
            have hvi1 : visB cells1 en.2 = true := by rw [← einv2.vis]; exact hvis
            by_cases henu : en.2 = u
            · have hne_top : en ≠ top :=
                ((heap_nodup inv).mem_erase_iff.mp (hsubE.mem hren)).1
              have hsym : Symmetric (fun (a b : Entry) => a.2 = b.2 → a.1.g ≠ b.1.g) := by
                intro a b h h2
                exact fun h3 => h h2.symm h3.symm
              have hne_g : en.1.g ≠ top.1.g :=
                inv.distinctG.forall hsym hen_heap htop hne_top (henu.trans hu)
              obtain ⟨k, hk, hkle, -, -⟩ := inv.heapEnt en hen_heap
              have hkgu : k = gu := by
                rw [henu] at hk
                rw [hgu_eq] at hk
                exact (Option.some.inj hk).symm
              refine ⟨gu, ?_, ?_⟩
              · rw [henu]; exact hg2u
              · have h1 : gu ≤ en.1.g := hkgu ▸ hkle
                have h2 : en.1.g ≠ gu := by
                  rw [hgu]
                  exact hne_g
                omega
            · have hvi0 : visB cells en.2 = true := by
                rw [← hvother en.2 henu]; exact hvi1
              obtain ⟨k, hk, hklt⟩ := inv.visStale en hen_heap hvi0
              refine ⟨k, ?_, hklt⟩
              rcases hdich en.2 with h | ⟨nd1, hg1, hv1, -, -, -, -⟩
              · rw [hgkeep en.2 h]
                exact hk
              · exfalso
                have hvf : visB cells1 en.2 = false := by
                  simp only [visB, hg1, hv1]
                rw [hvf] at hvi1
                cases hvi1
          · rw [einv2.vis] at hvis
            rw [hvis] at hv1
            cases hv1
        · -- distinctG
          exact einv2.pw
        · -- visE
          have h1 : visB st2.1 e = visB cells1 e := einv2.vis e
          have h2 : visB cells1 e = visB cells e := hvother e (fun h => hue (by rw [← h]))
          rw [h1, h2]
          exact inv.visE
      · -- measure decrease
        have h4 : (w.get_neighbours u).length ≤ 4 := get_neighbours_length_le w u
        have hunvis_eq :
            (cells.filter (fun x => !x.visited)).length
              = ((cells1.filter (fun x => !x.visited)).length) + 1 :=
          unvis_set_visited cells u nd _ hget_u hnd_vis rfl
        have hcong := unvis_congr st2.1 cells1 (einv2.len) (einv2.vis)
        have hlen2b : st2.2.length ≤ rest.length + (w.get_neighbours u).length := hlen2
        unfold searchMeasure
        rw [hcong]
        omega
    · -- stale entry handed over with an emptied heap: everything is a no-op
      have hrest_nil : rest = [] := by
        rcases hlast with h | h
        · exact h
        · exact absurd h hfresh
      have hvisu : visB cells top.2 = true := by
        apply top_stale_visited inv htop
        · rw [← hrest_nil]; exact hsurv
        · exact hfresh
      have hnd_vis : nd.visited = true := by
        unfold visB at hvisu
        rw [hget_u] at hvisu
        exact hvisu
      have hrec_eq : ({ nd with visited := true } : Node) = nd := by
        cases nd
        simp_all
      have hcells1 : cells.set top.2 { nd with visited := true } = cells := by
        rw [hrec_eq]
        exact list_set_same cells top.2 nd hget_u
      have hnoop : expandList w e top.2 (w.get_neighbours top.2) (cells, rest)
          = some (cells, rest) := by
        apply expand_noop w e top.2 cells rest hget_u
        · intro nb hnb
          obtain ⟨hlt, -, -⟩ := mem_get_neighbours_elim w hdiv hnb
          rw [inv.len]
          exact hlt
        · intro nb hnb hvnb
          have := inv.relaxed top.2 hvisu nb hnb hvnb
          have hgu : gOf cells top.2 = nd.g_score := by
            unfold gOf
            rw [hget_u]
            rfl
          rw [hgu] at this
          exact this
      refine ⟨cells, rest, ?_, ?_, ?_⟩
      · simp only [aStarStep, hpop, if_neg hue, hget_u, hcells1, hnoop]
      · rw [hrest_nil]
        constructor
        · exact inv.len
        · exact inv.gs
        · exact inv.gWalk
        · exact inv.fg
        · exact inv.pred
        · intro en hen; cases hen
        · intro i k hk hvis
          exfalso
          have hmemf := inv.fresh i k hk hvis
          have hfr := freshE_of_g inv hk
          have hne_top : (FS.mk k (w.hsq i e), i) ≠ top := by
            intro hcontra
            apply hfresh
            rw [← hcontra]
            exact hfr
          have := hsurv _ hmemf hfr hne_top
          rw [hrest_nil] at this
          cases this
        · exact inv.visMin
        · exact inv.relaxed
        · intro en hen; cases hen
        · exact List.Pairwise.nil
        · exact inv.visE
      · unfold searchMeasure
        rw [hrest_nil]
        have h2 : 0 < heap.length := List.length_pos.mpr hne
        simp only [List.length_nil]
        omega

/-! ## The run invariant at the start of the search -/

/-- The invariant holds for the records and frontier `a_star` builds
before its outer loop: the start cell holds `g = 0` and
`f = h(start, end)`, every other record is unknown, and the frontier is
the single entry `(h(start, end), start)`. -/
theorem aStarInv_init (w : Window) (s e : Nat) (hs : s < w.get_num_cells) :
    AStarInv w s e
      ((List.replicate w.get_num_cells ({} : Node)).set s
        (Node.mk none (some 0) (some (h_score w s e)) false))
      [(h_score w s e, s)] := by
  have hlenr : (List.replicate w.get_num_cells ({} : Node)).length
      = w.get_num_cells := List.length_replicate _ _
  have hgs : ((List.replicate w.get_num_cells ({} : Node)).set s
      (Node.mk none (some 0) (some (h_score w s e)) false)).get? s
      = some (Node.mk none (some 0) (some (h_score w s e)) false) :=
    get?_set_self _ _ _ (by rw [hlenr]; exact hs)
  have hother : ∀ i, i ≠ s →
      (((List.replicate w.get_num_cells ({} : Node)).set s
          (Node.mk none (some 0) (some (h_score w s e)) false)).get? i
            = some ({} : Node) ∨
        ((List.replicate w.get_num_cells ({} : Node)).set s
          (Node.mk none (some 0) (some (h_score w s e)) false)).get? i
            = none) := by
    intro i hi
    rw [List.get?_set_ne _ _ (fun h => hi h.symm)]
    rcases h : (List.replicate w.get_num_cells ({} : Node)).get? i with _ | nd
    · right; rfl
    · left
      rw [List.eq_of_mem_replicate (List.get?_mem h)]
  have hnovis : ∀ i, visB ((List.replicate w.get_num_cells ({} : Node)).set s
      (Node.mk none (some 0) (some (h_score w s e)) false)) i = false := by
    intro i
    by_cases hi : i = s
    · subst hi
      simp only [visB, hgs]
    · rcases hother i hi with h | h
      · simp only [visB, h]
      · simp only [visB, h]
  have honly : ∀ i k, gOf ((List.replicate w.get_num_cells ({} : Node)).set s
      (Node.mk none (some 0) (some (h_score w s e)) false)) i = some k →
      i = s ∧ k = 0 := by
    intro i k hk
    by_cases hi : i = s
    · subst hi
      unfold gOf at hk
      rw [hgs] at hk
      simp only [Option.bind_eq_bind, Option.some_bind] at hk
      exact ⟨rfl, (Option.some.inj hk).symm⟩
    · exfalso
      rcases hother i hi with h | h
      · unfold gOf at hk
        rw [h] at hk
        simp at hk
      · unfold gOf at hk
        rw [h] at hk
        simp at hk
  constructor
  · rw [List.length_set]
    exact hlenr
  · unfold gOf
    rw [hgs]
    rfl
  · intro i k hk
    obtain ⟨hi, hk0⟩ := honly i k hk
    subst hi
    subst hk0
    exact Wk.nil
  · intro i k hk
    obtain ⟨hi, hk0⟩ := honly i k hk
    subst hi
    subst hk0
    unfold fOf
    rw [hgs]
    rfl
  · intro i k hk his
    obtain ⟨hi, -⟩ := honly i k hk
    exact absurd hi his
  · intro en hen
    rw [List.mem_singleton] at hen
    subst hen
    refine ⟨0, ?_, Nat.zero_le _, rfl, hs⟩
    unfold gOf
    rw [hgs]
    rfl
  · intro i k hk hv
    obtain ⟨hi, hk0⟩ := honly i k hk
    subst hi
    subst hk0
    exact List.mem_singleton.mpr rfl
  · intro i hv
    rw [hnovis i] at hv
    cases hv
  · intro c hv
    rw [hnovis c] at hv
    cases hv
  · intro en hen hv
    rw [hnovis en.2] at hv
    cases hv
  · simp
  · exact hnovis e

/-! ## The outer loop runs to completion -/

/-- From any invariant state the outer loop terminates without error
within any fuel exceeding the measure, and either drains the frontier
and returns the empty path, or pops the end cell and returns a
reconstructed path: one that starts at the start cell, ends at the end
cell, follows neighbours, avoids obstacles except possibly at the
start, and whose edge count is the minimum walk length from start to
end. -/
theorem aStarLoop_spec (w : Window) (s e : Nat)
    (hdiv : Window.cell_width ∣ w.width) (hse : s ≠ e) :
    ∀ (fuel : Nat) (cells : List Node) (heap : List Entry),
      AStarInv w s e cells heap → searchMeasure cells heap < fuel →
      ∃ r, aStarLoop w s e fuel cells heap = some r ∧
        (r.1 = [] ∨
          ∃ k, r.1.head? = some s ∧ r.1.getLast? = some e ∧
            List.Chain' (fun a b => b ∈ w.get_neighbours a) r.1 ∧
            (∀ x ∈ r.1, x = s ∨ w.obstacle_exists x = false) ∧
            Wk w s e k ∧ (∀ m, Wk w s e m → k ≤ m) ∧
            r.1.length = k + 1) := by
  intro fuel
  induction fuel with
  | zero =>
    intro cells heap inv hm
    exact absurd hm (Nat.not_lt_zero _)
  | succ fuel ih =>
    intro cells heap inv hm
    by_cases hhe : heap.isEmpty = true
    · refine ⟨([], heap), ?_, Or.inl rfl⟩
      rw [aStarLoop, if_pos hhe]
    · have hne : heap ≠ [] := by
        intro h
        subst h
        exact hhe rfl
      rcases aStarStep_spec w s e hdiv inv hne with
        ⟨p, rest, k, hstep, hgk, hmink, hcp⟩ | ⟨cells2, heap2, hstep, inv2, hdec⟩
      · refine ⟨(p, rest), ?_, ?_⟩
        · rw [aStarLoop, if_neg hhe]
          simp only [hstep]
        · right
          obtain ⟨p2, t, hcp2, hhead, hlastp, hchain, hobs, hwk, htk, hlen⟩ :=
            construct_path_spec w s e cells inv.pred hse hgk
          have hpp : p2 = p := by
            rw [hcp] at hcp2
            exact (Option.some.inj hcp2).symm
          subst hpp
          have hkt : k ≤ t := hmink t hwk
          have htk2 : t = k := le_antisymm htk hkt
          subst htk2
          exact ⟨t, hhead, hlastp, hchain, hobs, hwk, hmink, hlen⟩
      · obtain ⟨r, hr, hprop⟩ := ih cells2 heap2 inv2 (by omega)
        refine ⟨r, ?_, hprop⟩
        rw [aStarLoop, if_neg hhe]
        simp only [hstep]
        exact hr

/-- C1.  On a grid state with defined, in-bounds start and end, neither
an obstacle, start distinct from end (and the cell stride dividing the
width, as it does in every window the program constructs), a non-empty
result of `a_star` starts at the start cell, ends at the end cell,
steps only between neighbouring (4-adjacent, non-obstacle) cells,
contains no obstacle cell, and its edge count is the minimum number of
unit steps of any walk from start to end through neighbouring cells. -/
theorem a_star_path_correct (w : Window) (s e : Nat) (p : List Nat)
    (rest : List Entry) (hdiv : Window.cell_width ∣ w.width)
    (hs : w.start = some s) (he : w.end_ = some e)
    (hsn : s < w.get_num_cells) (hen : e < w.get_num_cells)
    (hso : w.obstacle_exists s = false) (heo : w.obstacle_exists e = false)
    (hse : s ≠ e) (hrun : a_star w [] = some (p, rest)) (hne : p ≠ []) :
    p.head? = some s ∧ p.getLast? = some e ∧
      List.Chain' (fun a b => b ∈ w.get_neighbours a) p ∧
      (∀ x ∈ p, w.obstacle_exists x = false) ∧
      ∃ k, Wk w s e k ∧ (∀ m, Wk w s e m → k ≤ m) ∧ p.length = k + 1 := by
  have hget : (List.replicate w.get_num_cells ({} : Node)).get? s = some {} := by
    rw [List.get?_eq_getElem?, List.getElem?_replicate, if_pos hsn]
  have hmeas : searchMeasure
      ((List.replicate w.get_num_cells ({} : Node)).set s
        (Node.mk none (some 0) (some (h_score w s e)) false))
      [(h_score w s e, s)] < 1 + 5 * w.get_num_cells + 1 := by
    have hf : (((List.replicate w.get_num_cells ({} : Node)).set s
        (Node.mk none (some 0) (some (h_score w s e)) false)).filter
          (fun nd => !nd.visited)).length ≤ w.get_num_cells := by
      have h1 := List.length_filter_le (fun nd => !nd.visited)
        ((List.replicate w.get_num_cells ({} : Node)).set s
          (Node.mk none (some 0) (some (h_score w s e)) false))
      rw [List.length_set, List.length_replicate] at h1
      exact h1
    unfold searchMeasure
    simp only [List.length_singleton]
    omega
  obtain ⟨r, hr, hprop⟩ :=
    aStarLoop_spec w s e hdiv hse (1 + 5 * w.get_num_cells + 1)
      ((List.replicate w.get_num_cells ({} : Node)).set s
        (Node.mk none (some 0) (some (h_score w s e)) false))
      [(h_score w s e, s)]
      (aStarInv_init w s e hsn) hmeas
  have hrr : a_star w [] = some r := by
    simp only [a_star, hs, he, hget, List.nil_append, List.length_cons,
      List.length_nil, Nat.zero_add]
    exact hr
  rw [hrun] at hrr
  have hr2 : r = (p, rest) := (Option.some.inj hrr).symm
  subst hr2
  rcases hprop with hnil | ⟨k, hhead, hlast, hchain, hobs, hwk, hmink, hlen⟩
  · exact absurd hnil hne
  · refine ⟨hhead, hlast, hchain, ?_, k, hwk, hmink, hlen⟩
    intro x hx
    rcases hobs x hx with rfl | h
    · exact hso
    · exact h

/-- Witness for C1: on the open 2-by-2 window the run returns the path
`[0, 1, 3]`, which starts at 0, ends at 3, walks through neighbours,
avoids obstacles and spends the minimal two edges. -/
theorem a_star_path_correct_witness :
    ([0, 1, 3] : List Nat).head? = some 0 ∧
    ([0, 1, 3] : List Nat).getLast? = some 3 ∧
    List.Chain' (fun a b => b ∈ windowOpenFour.get_neighbours a) [0, 1, 3] ∧
    (∀ x ∈ ([0, 1, 3] : List Nat), windowOpenFour.obstacle_exists x = false) ∧
    ∃ k, Wk windowOpenFour 0 3 k ∧ (∀ m, Wk windowOpenFour 0 3 m → k ≤ m) ∧
      ([0, 1, 3] : List Nat).length = k + 1 :=
  a_star_path_correct windowOpenFour 0 3 [0, 1, 3] [] (by decide) rfl rfl
    (by decide) (by decide) (by decide) (by decide) (by decide) (by decide)
    (by decide)

/-- C4.  When no walk through neighbouring cells joins the defined,
in-bounds, non-obstacle start to the end, `a_star` drains its frontier
and returns the empty path, and the run raises no error (the result is
`some`, never the `none` that models an exception). -/
theorem a_star_no_path (w : Window) (s e : Nat)
    (hdiv : Window.cell_width ∣ w.width)
    (hs : w.start = some s) (he : w.end_ = some e)
    (hsn : s < w.get_num_cells) (hen : e < w.get_num_cells)
    (hso : w.obstacle_exists s = false) (heo : w.obstacle_exists e = false)
    (hnw : ∀ m, ¬ Wk w s e m) :
    ∃ r, a_star w [] = some r ∧ r.1 = [] := by
  have hse : s ≠ e := by
    intro h
    exact hnw 0 (h ▸ Wk.nil)
  have hget : (List.replicate w.get_num_cells ({} : Node)).get? s = some {} := by
    rw [List.get?_eq_getElem?, List.getElem?_replicate, if_pos hsn]
  have hmeas : searchMeasure
      ((List.replicate w.get_num_cells ({} : Node)).set s
        (Node.mk none (some 0) (some (h_score w s e)) false))
      [(h_score w s e, s)] < 1 + 5 * w.get_num_cells + 1 := by
    have hf : (((List.replicate w.get_num_cells ({} : Node)).set s
        (Node.mk none (some 0) (some (h_score w s e)) false)).filter
          (fun nd => !nd.visited)).length ≤ w.get_num_cells := by
      have h1 := List.length_filter_le (fun nd => !nd.visited)
        ((List.replicate w.get_num_cells ({} : Node)).set s
          (Node.mk none (some 0) (some (h_score w s e)) false))
      rw [List.length_set, List.length_replicate] at h1
      exact h1
    unfold searchMeasure
    simp only [List.length_singleton]
    omega
  obtain ⟨r, hr, hprop⟩ :=
    aStarLoop_spec w s e hdiv hse (1 + 5 * w.get_num_cells + 1)
      ((List.replicate w.get_num_cells ({} : Node)).set s
        (Node.mk none (some 0) (some (h_score w s e)) false))
      [(h_score w s e, s)]
      (aStarInv_init w s e hsn) hmeas
  have hrr : a_star w [] = some r := by
    simp only [a_star, hs, he, hget, List.nil_append, List.length_cons,
      List.length_nil, Nat.zero_add]
    exact hr
  refine ⟨r, hrr, ?_⟩
  rcases hprop with hnil | ⟨k, -, -, -, -, hwk, -, -⟩
  · exact hnil
  · exact absurd hwk (hnw k)

/-- In the blocked 2-by-2 window cell 0 has no neighbours, so every
walk from 0 stays at 0 and none reaches 3. -/
theorem windowBlockedFour_no_walk : ∀ m, ¬ Wk windowBlockedFour 0 3 m := by
  have h0 : ∀ m i, Wk windowBlockedFour 0 i m → i = 0 := by
    intro m i h
    induction h with
    | nil => rfl
    | cons hw hm ih =>
      rw [ih] at hm
      have hnil : windowBlockedFour.get_neighbours 0 = [] := by decide
      rw [hnil] at hm
      cases hm
  intro m hw
  exact absurd (h0 m 3 hw) (by decide)

/-- Witness for C4: on the blocked 2-by-2 window (obstacles at cells 1
and 2) the run returns the empty path without error. -/
theorem a_star_no_path_witness :
    ∃ r, a_star windowBlockedFour [] = some r ∧ r.1 = [] :=
  a_star_no_path windowBlockedFour 0 3 (by decide) rfl rfl (by decide)
    (by decide) (by decide) (by decide) windowBlockedFour_no_walk
